import Mathlib

/-!  Verification of the peak-detection library.

A shallow embedding of the two detectors of the repository:
`PeakDetector` (batch, `peak.py`) and `PeakDetectorSingleSample`
(streaming, `peak_single_sample.py`).  Signals are modelled as lists of
rationals, Python integers as `Int`/`Nat`, optional configuration fields
as `Option`, and Python truthiness tests (`if self.min_distance:`) as
disequality with zero.  The `while` loops of the source are modelled as
structural or fuel-based recursions whose fuel provably dominates the
number of iterations the loop can perform. -/

namespace PeakDetection

/-- Minimum of a list of rationals (`np.min` / `min` in the source); `0` on
the empty list, which no modelled call site reaches with an empty slice. -/
def listMin : List ℚ → ℚ
  | [] => 0
  | x :: xs => xs.foldl min x

/-! ## Batch detector: `PeakDetector` (`peak.py`) -/

/-- Constructor arguments of `PeakDetector` (the signal is passed
separately). -/
structure BatchConfig where
  threshold : ℚ
  min_distance : ℤ
  prominence : Option ℚ
  width : Option ℚ

/-- Step 1 of `detect_peaks`: index `i` is a candidate iff it is interior
and `signal[i] > signal[i-1] + threshold` and
`signal[i] > signal[i+1] + threshold`. -/
def isCandidate (signal : List ℚ) (t : ℚ) (i : ℕ) : Bool :=
  decide (1 ≤ i) && decide (i + 1 < signal.length) &&
  decide (signal.getD (i - 1) 0 + t < signal.getD i 0) &&
  decide (signal.getD (i + 1) 0 + t < signal.getD i 0)

/-- The candidate scan of `detect_peaks` (`for i in range(1, len-1)`). -/
def detectCandidates (signal : List ℚ) (t : ℚ) : List ℕ :=
  (List.range signal.length).filter (isCandidate signal t)

/-- The loop of `_enforce_min_distance`, carrying the last kept index. -/
def enforceAux (d : ℤ) : ℕ → List ℕ → List ℕ
  | _, [] => []
  | lastKept, p :: rest =>
    if d ≤ (p : ℤ) - (lastKept : ℤ) then p :: enforceAux d p rest
    else enforceAux d lastKept rest

/-- `PeakDetector._enforce_min_distance`: greedy left-to-right retention. -/
def enforce_min_distance (peaks : List ℕ) (d : ℤ) : List ℕ :=
  match peaks with
  | [] => []
  | p :: rest => p :: enforceAux d p rest

/-- The left loop of `_calculate_prominence`:
`while left_base > 0 and signal[left_base] <= signal[left_base-1]:
left_base -= 1`. -/
def leftBase (signal : List ℚ) : ℕ → ℕ
  | 0 => 0
  | n + 1 =>
    if signal.getD (n + 1) 0 ≤ signal.getD n 0 then leftBase signal n
    else n + 1

/-- The right loop of `_calculate_prominence`:
`while right_base < len-1 and signal[right_base] <= signal[right_base+1]:
right_base += 1`; the fuel (instantiated with `signal.length`) dominates
the number of iterations, which is bounded by `len - 1 - right_base`. -/
def rightBaseAux (signal : List ℚ) : ℕ → ℕ → ℕ
  | 0, rb => rb
  | fuel + 1, rb =>
    if rb + 1 < signal.length ∧ signal.getD rb 0 ≤ signal.getD (rb + 1) 0 then
      rightBaseAux signal fuel (rb + 1)
    else rb

/-- `np.min(signal[a : b+1])`. -/
def sliceMin (signal : List ℚ) (a b : ℕ) : ℚ :=
  listMin ((signal.drop a).take (b + 1 - a))

/-- `PeakDetector._calculate_prominence`. -/
def calculate_prominence (signal : List ℚ) (peak : ℕ) : ℚ :=
  let lb := leftBase signal peak
  let rb := rightBaseAux signal signal.length peak
  let left_min := sliceMin signal lb peak
  let right_min := sliceMin signal peak rb
  signal.getD peak 0 - max left_min right_min

/-- The left loop of `_calculate_width`:
`while left_idx > 0 and signal[left_idx] > half_height: left_idx -= 1`. -/
def widthLeftIdx (signal : List ℚ) (half : ℚ) : ℕ → ℕ
  | 0 => 0
  | n + 1 =>
    if half < signal.getD (n + 1) 0 then widthLeftIdx signal half n
    else n + 1

/-- The right loop of `_calculate_width`:
`while right_idx < len-1 and signal[right_idx] > half_height:
right_idx += 1`, fuel-based as for `rightBaseAux`. -/
def widthRightIdx (signal : List ℚ) (half : ℚ) : ℕ → ℕ → ℕ
  | 0, r => r
  | fuel + 1, r =>
    if r + 1 < signal.length ∧ half < signal.getD r 0 then
      widthRightIdx signal half fuel (r + 1)
    else r

/-- `PeakDetector._calculate_width` (the result is a nonnegative index
difference: the right index never moves left of the peak nor the left
index right of it). -/
def calculate_width (signal : List ℚ) (t : ℚ) (peak : ℕ) : ℕ :=
  let half := (signal.getD peak 0 + t) / 2
  widthRightIdx signal half signal.length peak - widthLeftIdx signal half peak

/-- `if self.prominence is not None and prom < self.prominence: continue`. -/
def promDrops (cfg : BatchConfig) (signal : List ℚ) (p : ℕ) : Bool :=
  match cfg.prominence with
  | none => false
  | some c => decide (calculate_prominence signal p < c)

/-- `if self.width is not None and w < self.width: continue`. -/
def widthDrops (cfg : BatchConfig) (signal : List ℚ) (p : ℕ) : Bool :=
  match cfg.width with
  | none => false
  | some c => decide ((calculate_width signal cfg.threshold p : ℚ) < c)

/-- The pair returned by `detect_peaks`: the `peaks` list and the three
lists of the `peak_properties` dictionary. -/
structure BatchResult where
  peaks : List ℕ
  heights : List ℚ
  prominences : List (Option ℚ)
  widths : List (Option ℕ)

/-- `PeakDetector.detect_peaks`: scan, distance filter, then the property
loop.  The loop appends to the three property lists only for candidates
that pass the prominence/width tests, but the returned `peaks` list is the
distance-filtered list itself, never re-filtered. -/
def detect_peaks (cfg : BatchConfig) (signal : List ℚ) : BatchResult :=
  let cands := detectCandidates signal cfg.threshold
  let peaks := enforce_min_distance cands cfg.min_distance
  let sur := peaks.filter fun p => !promDrops cfg signal p && !widthDrops cfg signal p
  BatchResult.mk peaks (sur.map fun p => signal.getD p 0)
    (sur.map fun p => cfg.prominence.map fun _ => calculate_prominence signal p)
    (sur.map fun p => cfg.width.map fun _ => calculate_width signal cfg.threshold p)

/-- The batch prominence base-finding as §4.1 of the spec words it: from
the peak walk left while the signal is non-increasing in the walking
direction (`signal[j-1] ≤ signal[j]` keeps descending), i.e.
descend-until-rising.  Written from the spec sentence, to be compared with
`calculate_prominence` from the source. -/
def specLeftBase (signal : List ℚ) : ℕ → ℕ
  | 0 => 0
  | n + 1 =>
    if signal.getD n 0 ≤ signal.getD (n + 1) 0 then specLeftBase signal n
    else n + 1

/-- Right-side descend-until-rising base, from the spec sentence. -/
def specRightBaseAux (signal : List ℚ) : ℕ → ℕ → ℕ
  | 0, rb => rb
  | fuel + 1, rb =>
    if rb + 1 < signal.length ∧ signal.getD (rb + 1) 0 ≤ signal.getD rb 0 then
      specRightBaseAux signal fuel (rb + 1)
    else rb

/-- Prominence as the spec describes it: peak value minus
`max(min(signal[left_base..peak]), min(signal[peak..right_base]))` with
descend-until-rising bases. -/
def specProminence (signal : List ℚ) (peak : ℕ) : ℚ :=
  let lb := specLeftBase signal peak
  let rb := specRightBaseAux signal signal.length peak
  signal.getD peak 0 - max (sliceMin signal lb peak) (sliceMin signal peak rb)

/-! ## Streaming detector: `PeakDetectorSingleSample`
(`peak_single_sample.py`) -/

/-- Constructor arguments of `PeakDetectorSingleSample`. -/
structure StreamConfig where
  buffer_size : ℕ
  threshold : ℚ
  min_distance : ℤ
  prominence : Option ℚ
  width : Option ℚ

/-- The mutable attributes of a `PeakDetectorSingleSample` instance. -/
structure StreamState where
  buffer : List ℚ
  buffer_index : ℕ
  potential_peaks : List (ℕ × ℚ)
  confirmed_peaks : List (ℕ × ℚ)
  sample_count : ℕ

/-- `__init__`: zero-filled fixed-size buffer, empty queues, zero
counters. -/
def initState (cfg : StreamConfig) : StreamState :=
  StreamState.mk (List.replicate cfg.buffer_size 0) 0 [] [] 0

/-- `_calculate_prominence` (streaming): both `left_min` and `right_min`
are the minimum of the same rotated copy of the whole buffer. -/
def streamProminence (cfg : StreamConfig) (buffer : List ℚ) (pk : ℕ × ℚ) : ℚ :=
  let peakIdx := pk.1 % cfg.buffer_size
  let left_min := listMin (buffer.drop peakIdx ++ buffer.take peakIdx)
  let right_min := listMin (buffer.drop peakIdx ++ buffer.take peakIdx)
  pk.2 - max left_min right_min

/-- The left loop of the streaming `_calculate_width`: step `(left-1) % B`
while above half height, breaking when the scan returns to the peak's own
slot; the fuel `B` dominates the wrap-around bound enforced by the break. -/
def streamWidthLeft (buffer : List ℚ) (B : ℕ) (half : ℚ) (peakIdx : ℕ) :
    ℕ → ℕ → ℕ
  | 0, l => l
  | fuel + 1, l =>
    if half < buffer.getD l 0 then
      let l2 := (l + B - 1) % B
      if l2 = peakIdx then l2 else streamWidthLeft buffer B half peakIdx fuel l2
    else l

/-- The right loop of the streaming `_calculate_width`. -/
def streamWidthRight (buffer : List ℚ) (B : ℕ) (half : ℚ) (peakIdx : ℕ) :
    ℕ → ℕ → ℕ
  | 0, r => r
  | fuel + 1, r =>
    if half < buffer.getD r 0 then
      let r2 := (r + 1) % B
      if r2 = peakIdx then r2 else streamWidthRight buffer B half peakIdx fuel r2
    else r

/-- `_calculate_width` (streaming): circular distance between the two
stopping slots. -/
def streamWidth (cfg : StreamConfig) (buffer : List ℚ) (pk : ℕ × ℚ) : ℕ :=
  let B := cfg.buffer_size
  let half := (pk.2 + cfg.threshold) / 2
  let peakIdx := pk.1 % B
  let l := streamWidthLeft buffer B half peakIdx B peakIdx
  let r := streamWidthRight buffer B half peakIdx B peakIdx
  if l < r then r - l else B - l + r

/-- The distance stage of `_check_peak_validity`; `true` means the stage
does not reject (the `if self.min_distance:` guard is Python truthiness). -/
def distancePasses (cfg : StreamConfig) (confirmed : List (ℕ × ℚ))
    (pk : ℕ × ℚ) : Bool :=
  if cfg.min_distance ≠ 0 then
    match confirmed.getLast? with
    | some lastPk => decide (cfg.min_distance ≤ (pk.1 : ℤ) - (lastPk.1 : ℤ))
    | none => true
  else true

/-- The prominence stage of `_check_peak_validity` (guarded by the
truthiness of `self.prominence`, so a configured `0` disables it). -/
def promPasses (cfg : StreamConfig) (buffer : List ℚ) (pk : ℕ × ℚ) : Bool :=
  match cfg.prominence with
  | some c => if c ≠ 0 then decide (c ≤ streamProminence cfg buffer pk) else true
  | none => true

/-- The width stage of `_check_peak_validity`. -/
def widthPasses (cfg : StreamConfig) (buffer : List ℚ) (pk : ℕ × ℚ) : Bool :=
  match cfg.width with
  | some c => if c ≠ 0 then decide (c ≤ (streamWidth cfg buffer pk : ℚ)) else true
  | none => true

/-- `_check_peak_validity`: distance, then prominence, then width. -/
def check_peak_validity (cfg : StreamConfig) (buffer : List ℚ)
    (confirmed : List (ℕ × ℚ)) (pk : ℕ × ℚ) : Bool :=
  distancePasses cfg confirmed pk && promPasses cfg buffer pk &&
    widthPasses cfg buffer pk

/-- The loop of `_process_potential_peaks`: resolve every pending
candidate whose age has reached `buffer_size // 2`, keep the rest (in
order) as the new pending queue; confirmations append to the confirmed
list read by the distance checks of later candidates in the same pass. -/
def processLoop (cfg : StreamConfig) (buffer : List ℚ) (sc : ℕ) :
    List (ℕ × ℚ) → List (ℕ × ℚ) → List (ℕ × ℚ) →
    List (ℕ × ℚ) × List (ℕ × ℚ)
  | [], pending, confirmed => (pending, confirmed)
  | pk :: rest, pending, confirmed =>
    if ((cfg.buffer_size / 2 : ℕ) : ℤ) ≤ (sc : ℤ) - (pk.1 : ℤ) then
      if check_peak_validity cfg buffer confirmed pk then
        processLoop cfg buffer sc rest pending (confirmed ++ [pk])
      else processLoop cfg buffer sc rest pending confirmed
    else processLoop cfg buffer sc rest (pending ++ [pk]) confirmed

/-- `_process_potential_peaks`. -/
def processPeaks (cfg : StreamConfig) (s : StreamState) : StreamState :=
  let r := processLoop cfg s.buffer s.sample_count s.potential_peaks []
    s.confirmed_peaks
  StreamState.mk s.buffer s.buffer_index r.1 r.2 s.sample_count

/-- `_check_potential_peak`: test the sample two slots behind the cursor
against its circular neighbours and enqueue `(sample_count - 2, value)`
when it exceeds both by more than the threshold. -/
def checkPotential (cfg : StreamConfig) (s : StreamState) : StreamState :=
  let B := cfg.buffer_size
  let current := (s.buffer_index + B - 2) % B
  let prev := (current + B - 1) % B
  let next := (current + 1) % B
  if s.buffer.getD prev 0 + cfg.threshold < s.buffer.getD current 0 ∧
      s.buffer.getD next 0 + cfg.threshold < s.buffer.getD current 0 then
    StreamState.mk s.buffer s.buffer_index
      (s.potential_peaks ++ [(s.sample_count - 2, s.buffer.getD current 0)])
      s.confirmed_peaks s.sample_count
  else s

/-- The first statements of `add_sample`: increment `sample_count`, write
the sample at the cursor, advance the cursor modulo the buffer size.
For a positive `buffer_size` the cursor always stays in range, so the
total `List.set` matches the source exactly; at `buffer_size = 0` the
source's `self.buffer[self.buffer_index] = sample` raises `IndexError`
on the empty buffer, which a total function cannot express, so theorems
about ingestion running to completion assume a positive `buffer_size`. -/
def writeSample (cfg : StreamConfig) (s : StreamState) (x : ℚ) : StreamState :=
  StreamState.mk (s.buffer.set s.buffer_index x)
    ((s.buffer_index + 1) % cfg.buffer_size) s.potential_peaks
    s.confirmed_peaks (s.sample_count + 1)

/-- The state of `add_sample` after the write and the `sample_count >= 3`
candidate check, just before `_process_potential_peaks` may run. -/
def scanStage (cfg : StreamConfig) (s : StreamState) (x : ℚ) : StreamState :=
  let s1 := writeSample cfg s x
  if 3 ≤ s1.sample_count then checkPotential cfg s1 else s1

/-- `add_sample`: write the sample at the cursor, advance the cursor,
run the candidate test once three samples have been seen, and process the
pending queue once the window has filled. -/
def add_sample (cfg : StreamConfig) (s : StreamState) (x : ℚ) : StreamState :=
  if cfg.buffer_size ≤ (writeSample cfg s x).sample_count then
    processPeaks cfg (scanStage cfg s x)
  else scanStage cfg s x

/-- Feed the samples in order starting from an arbitrary state. -/
def streamRunFrom (cfg : StreamConfig) (s : StreamState)
    (samples : List ℚ) : StreamState :=
  samples.foldl (add_sample cfg) s

/-- A freshly-constructed detector fed the given samples in order. -/
def streamRun (cfg : StreamConfig) (samples : List ℚ) : StreamState :=
  streamRunFrom cfg (initState cfg) samples



/-! ## Basic state lemmas -/

theorem checkPotential_buffer (cfg : StreamConfig) (s : StreamState) :
    (checkPotential cfg s).buffer = s.buffer := by
  unfold checkPotential; dsimp only; split <;> rfl

theorem checkPotential_buffer_index (cfg : StreamConfig) (s : StreamState) :
    (checkPotential cfg s).buffer_index = s.buffer_index := by
  unfold checkPotential; dsimp only; split <;> rfl

theorem checkPotential_confirmed (cfg : StreamConfig) (s : StreamState) :
    (checkPotential cfg s).confirmed_peaks = s.confirmed_peaks := by
  unfold checkPotential; dsimp only; split <;> rfl

theorem checkPotential_sample_count (cfg : StreamConfig) (s : StreamState) :
    (checkPotential cfg s).sample_count = s.sample_count := by
  unfold checkPotential; dsimp only; split <;> rfl

theorem processPeaks_buffer (cfg : StreamConfig) (s : StreamState) :
    (processPeaks cfg s).buffer = s.buffer := rfl

theorem processPeaks_buffer_index (cfg : StreamConfig) (s : StreamState) :
    (processPeaks cfg s).buffer_index = s.buffer_index := rfl

theorem processPeaks_sample_count (cfg : StreamConfig) (s : StreamState) :
    (processPeaks cfg s).sample_count = s.sample_count := rfl

theorem scanStage_sample_count (cfg : StreamConfig) (s : StreamState) (x : ℚ) :
    (scanStage cfg s x).sample_count = s.sample_count + 1 := by
  unfold scanStage
  dsimp only
  split <;> simp [checkPotential_sample_count, writeSample]

theorem scanStage_buffer (cfg : StreamConfig) (s : StreamState) (x : ℚ) :
    (scanStage cfg s x).buffer = s.buffer.set s.buffer_index x := by
  unfold scanStage
  dsimp only
  split <;> simp [checkPotential_buffer, writeSample]

theorem scanStage_buffer_index (cfg : StreamConfig) (s : StreamState) (x : ℚ) :
    (scanStage cfg s x).buffer_index
      = (s.buffer_index + 1) % cfg.buffer_size := by
  unfold scanStage
  dsimp only
  split <;> simp [checkPotential_buffer_index, writeSample]

theorem scanStage_confirmed (cfg : StreamConfig) (s : StreamState) (x : ℚ) :
    (scanStage cfg s x).confirmed_peaks = s.confirmed_peaks := by
  unfold scanStage
  dsimp only
  split <;> simp [checkPotential_confirmed, writeSample]

theorem add_sample_cases (cfg : StreamConfig) (s : StreamState) (x : ℚ) :
    add_sample cfg s x
      = if cfg.buffer_size ≤ s.sample_count + 1 then
          processPeaks cfg (scanStage cfg s x)
        else scanStage cfg s x := rfl

theorem add_sample_sample_count (cfg : StreamConfig) (s : StreamState) (x : ℚ) :
    (add_sample cfg s x).sample_count = s.sample_count + 1 := by
  rw [add_sample_cases]
  split <;> simp [processPeaks_sample_count, scanStage_sample_count]

theorem add_sample_buffer (cfg : StreamConfig) (s : StreamState) (x : ℚ) :
    (add_sample cfg s x).buffer = s.buffer.set s.buffer_index x := by
  rw [add_sample_cases]
  split <;> simp [processPeaks_buffer, scanStage_buffer]

theorem add_sample_buffer_index (cfg : StreamConfig) (s : StreamState) (x : ℚ) :
    (add_sample cfg s x).buffer_index
      = (s.buffer_index + 1) % cfg.buffer_size := by
  rw [add_sample_cases]
  split <;> simp [processPeaks_buffer_index, scanStage_buffer_index]

theorem streamRunFrom_append (cfg : StreamConfig) (s : StreamState)
    (xs ys : List ℚ) :
    streamRunFrom cfg s (xs ++ ys) = streamRunFrom cfg (streamRunFrom cfg s xs) ys := by
  unfold streamRunFrom
  exact List.foldl_append _ _ _ _

/-! ## Theorems about the claims -/

/-- C5: on `[0,1,0,2,0,1,0]` with threshold 0, `detect_peaks` returns the
peaks `[1,3,5]` with `min_distance = 1` and `[1,5]` with
`min_distance = 3`. -/
theorem C5_spike_peaks :
    (detect_peaks (BatchConfig.mk 0 1 none none) [0, 1, 0, 2, 0, 1, 0]).peaks
      = [1, 3, 5] ∧
    (detect_peaks (BatchConfig.mk 0 3 none none) [0, 1, 0, 2, 0, 1, 0]).peaks
      = [1, 5] := by
  constructor <;>
    norm_num [detect_peaks, detectCandidates, isCandidate, List.range_succ,
      enforce_min_distance, enforceAux]

/-- C1: on the signal `[0,1,0]` with `prominence = 1`, the single
distance-filtered candidate `1` fails the prominence filter (its computed
prominence is `0 < 1`), yet `detect_peaks` still returns it in the peaks
list while every properties list is empty: the peaks list is not the list
of survivors and is not aligned with the properties. -/
theorem C1_peaks_not_refiltered :
    (detect_peaks (BatchConfig.mk 0 1 (some 1) none) [0, 1, 0]).peaks = [1] ∧
    (detect_peaks (BatchConfig.mk 0 1 (some 1) none) [0, 1, 0]).heights = [] ∧
    (detect_peaks (BatchConfig.mk 0 1 (some 1) none) [0, 1, 0]).prominences = [] ∧
    promDrops (BatchConfig.mk 0 1 (some 1) none) [0, 1, 0] 1 = true := by
  refine ⟨?_, ?_, ?_, ?_⟩ <;>
    norm_num [detect_peaks, detectCandidates, isCandidate, List.range_succ,
      enforce_min_distance, enforceAux, promDrops, widthDrops,
      calculate_prominence, leftBase, rightBaseAux, sliceMin, listMin]

/-- C2: on `[0,1,0]` at peak 1 the source's `_calculate_prominence`
returns `0` — its walk conditions are inverted, so from a strict local
maximum neither base ever moves — while the descend-until-rising
computation the spec describes returns `1`. -/
theorem C2_prominence_walks_inverted :
    calculate_prominence [0, 1, 0] 1 = 0 ∧ specProminence [0, 1, 0] 1 = 1 := by
  constructor <;>
    norm_num [calculate_prominence, specProminence, leftBase, rightBaseAux,
      specLeftBase, specRightBaseAux, sliceMin, listMin]

/-- C6 counterexample: with candidates `[1,3,5]` (exactly the candidate
scan of `[0,1,0,1,0,1,0]` at threshold 0) and `min_distance = 5`, the
candidates 3 and 5 are closer than 5 but the earlier one (3) is dropped
while nothing of the pair survives, refuting "the earlier-index one is
retained" for arbitrary close pairs. -/
theorem C6_close_pair_earlier_dropped :
    detectCandidates [0, 1, 0, 1, 0, 1, 0] 0 = [1, 3, 5] ∧
    enforce_min_distance [1, 3, 5] 5 = [1] ∧
    (5 : ℤ) - (3 : ℤ) < 5 ∧
    3 ∉ enforce_min_distance [1, 3, 5] 5 := by
  refine ⟨?_, ?_, by norm_num, ?_⟩ <;>
    norm_num [detectCandidates, isCandidate, List.range_succ,
      enforce_min_distance, enforceAux]

/-- C3 counterexample: with `buffer_size = 4` the candidate discovered at
position 1 while ingesting `[0,1,0]` already has age
`3 - 1 = 2 = buffer_size // 2` at its discovery ingestion, yet it is
neither confirmed nor discarded there: `_process_potential_peaks` only
runs once `sample_count ≥ buffer_size`. -/
theorem C3_not_resolved_at_half_age :
    (streamRun (StreamConfig.mk 4 0 1 none none) [0, 1, 0]).potential_peaks
      = [(1, 1)] ∧
    (streamRun (StreamConfig.mk 4 0 1 none none) [0, 1, 0]).confirmed_peaks
      = [] ∧
    (streamRun (StreamConfig.mk 4 0 1 none none) [0, 1, 0]).sample_count - 1
      = 4 / 2 := by
  refine ⟨?_, ?_, ?_⟩ <;>
    norm_num [streamRun, streamRunFrom, initState, add_sample, scanStage, writeSample,
      checkPotential, processPeaks, processLoop, check_peak_validity,
      distancePasses, promPasses, widthPasses, streamProminence, listMin]

/-- C4 counterexample: a batch detector constructed with
`min_distance = -1` and a streaming detector constructed with
`buffer_size = 2` (below 3) and `min_distance = -1` both proceed
normally — the batch call returns peak `[1]` on `[0,1,0]` and the
streaming detector even confirms a peak — so no `ConfigError`-style
rejection happens at construction or ingestion time. -/
theorem C4_no_validation_counterexample :
    (detect_peaks (BatchConfig.mk 0 (-1) none none) [0, 1, 0]).peaks = [1] ∧
    (streamRun (StreamConfig.mk 2 0 (-1) none none) [0, 1, 0]).confirmed_peaks
      = [(1, 1)] := by
  constructor <;>
    norm_num [detect_peaks, detectCandidates, isCandidate, List.range_succ,
      enforce_min_distance, enforceAux, streamRun, streamRunFrom, initState,
      add_sample, scanStage, writeSample, checkPotential, processPeaks, processLoop,
      check_peak_validity, distancePasses, promPasses, widthPasses,
      streamProminence, listMin]

/-- C4 (amended): the code performs no validation — construction accepts
a negative `min_distance` or a `buffer_size` below 3 without any error
(the counterexample), and for every configuration with a positive
`buffer_size` (where every buffer access of the source is in range) the
streaming detector ingests every sample normally and keeps counting.  The
positivity hypothesis excludes only `buffer_size ≤ 0`, where the source's
first ingestion fails with a plain `IndexError` on the empty buffer — not
with any validation error. -/
theorem C4_ingestion_total (cfg : StreamConfig)
    (hB : 1 ≤ cfg.buffer_size) (samples : List ℚ) :
    (streamRun cfg samples).sample_count = samples.length := by
  suffices h : ∀ s : StreamState, (streamRunFrom cfg s samples).sample_count
      = s.sample_count + samples.length by
    have := h (initState cfg)
    simpa [streamRun, initState] using this
  induction samples with
  | nil => intro s; simp [streamRunFrom]
  | cons x xs ih =>
    intro s
    have hx := ih (add_sample cfg s x)
    simp only [streamRunFrom, List.foldl_cons, List.length_cons] at hx ⊢
    rw [hx, add_sample_sample_count]
    omega

/-- Witness for the amended C4 at `buffer_size = 2`, `min_distance = -1`
(a configuration the claim says should be rejected), ingesting three
samples. -/
theorem C4_ingestion_total_witness :
    1 ≤ (StreamConfig.mk 2 0 (-1) none none).buffer_size ∧
    (streamRun (StreamConfig.mk 2 0 (-1) none none) [0, 1, 0]).sample_count
      = ([(0 : ℚ), 1, 0] : List ℚ).length :=
  ⟨by norm_num,
    C4_ingestion_total (StreamConfig.mk 2 0 (-1) none none) (by norm_num)
      [0, 1, 0]⟩

/-! ## Minimum lemmas -/

theorem foldl_min_le (l : List ℚ) (a : ℚ) : l.foldl min a ≤ a := by
  induction l generalizing a with
  | nil => exact le_refl a
  | cons b t ih => exact le_trans (ih (min a b)) (min_le_left a b)

theorem foldl_min_le_mem (l : List ℚ) (a x : ℚ) (hx : x ∈ l) :
    l.foldl min a ≤ x := by
  induction l generalizing a with
  | nil => cases hx
  | cons b t ih =>
    rcases List.mem_cons.mp hx with h | h
    · subst h
      exact le_trans (foldl_min_le t (min a x)) (min_le_right a x)
    · exact ih (min a b) h

theorem le_foldl_min (l : List ℚ) (a c : ℚ) (hc : c ≤ a)
    (h : ∀ x ∈ l, c ≤ x) : c ≤ l.foldl min a := by
  induction l generalizing a with
  | nil => exact hc
  | cons b t ih =>
    exact ih (min a b) (le_min hc (h b (List.mem_cons_self b t))) fun x hx =>
      h x (List.mem_cons_of_mem b hx)

theorem foldl_min_mem (l : List ℚ) (a : ℚ) : l.foldl min a ∈ a :: l := by
  induction l generalizing a with
  | nil => exact List.mem_cons_self _ _
  | cons b t ih =>
    have h := ih (min a b)
    rcases List.mem_cons.mp h with h1 | h1
    · rcases min_choice a b with h2 | h2
      · exact List.mem_cons.mpr (Or.inl (h1.trans h2))
      · exact List.mem_cons.mpr (Or.inr (List.mem_cons.mpr (Or.inl (h1.trans h2))))
    · exact List.mem_cons_of_mem a (List.mem_cons_of_mem b h1)

theorem listMin_le_mem (l : List ℚ) (x : ℚ) (hx : x ∈ l) : listMin l ≤ x := by
  cases l with
  | nil => cases hx
  | cons a t =>
    rcases List.mem_cons.mp hx with h | h
    · exact h ▸ foldl_min_le t a
    · exact foldl_min_le_mem t a x h

theorem le_listMin (l : List ℚ) (c : ℚ) (hne : l ≠ [])
    (h : ∀ x ∈ l, c ≤ x) : c ≤ listMin l := by
  cases l with
  | nil => exact absurd rfl hne
  | cons a t =>
    exact le_foldl_min t a c (h a (List.mem_cons_self a t)) fun x hx =>
      h x (List.mem_cons_of_mem a hx)

theorem listMin_mem (l : List ℚ) (hne : l ≠ []) : listMin l ∈ l := by
  cases l with
  | nil => exact absurd rfl hne
  | cons a t => exact foldl_min_mem t a

theorem mem_rotate_iff (l : List ℚ) (k : ℕ) (x : ℚ) :
    x ∈ l.drop k ++ l.take k ↔ x ∈ l := by
  constructor
  · intro hx
    rcases List.mem_append.mp hx with h | h
    · exact List.mem_of_mem_drop h
    · exact List.mem_of_mem_take h
  · intro hx
    rw [← List.take_append_drop k l] at hx
    rcases List.mem_append.mp hx with h | h
    · exact List.mem_append.mpr (Or.inr h)
    · exact List.mem_append.mpr (Or.inl h)

theorem rotate_ne_nil (l : List ℚ) (k : ℕ) (h : l ≠ []) :
    l.drop k ++ l.take k ≠ [] := by
  intro hc
  have hlen : (l.drop k ++ l.take k).length = l.length := by
    simp only [List.length_append, List.length_drop, List.length_take]
    omega
  rw [hc] at hlen
  exact h (List.eq_nil_of_length_eq_zero hlen.symm)

theorem listMin_rotate (l : List ℚ) (k : ℕ) (h : l ≠ []) :
    listMin (l.drop k ++ l.take k) = listMin l := by
  apply le_antisymm
  · exact listMin_le_mem _ _ ((mem_rotate_iff l k _).mpr (listMin_mem l h))
  · exact listMin_le_mem _ _ ((mem_rotate_iff l k _).mp
      (listMin_mem _ (rotate_ne_nil l k h)))

/-! ## Distance-filter lemmas -/

theorem enforceAux_sublist (d : ℤ) (lastKept : ℕ) (l : List ℕ) :
    (enforceAux d lastKept l).Sublist l := by
  induction l generalizing lastKept with
  | nil => exact List.Sublist.refl []
  | cons p rest ih =>
    unfold enforceAux
    split
    · exact List.Sublist.cons₂ p (ih p)
    · exact List.Sublist.cons p (ih lastKept)

theorem enforce_min_distance_sublist (l : List ℕ) (d : ℤ) :
    (enforce_min_distance l d).Sublist l := by
  cases l with
  | nil => exact List.Sublist.refl []
  | cons p rest => exact List.Sublist.cons₂ p (enforceAux_sublist d p rest)

theorem enforceAux_mem_ge (d : ℤ) (lastKept : ℕ) (l : List ℕ)
    (hsort : l.Pairwise (· < ·)) (hgt : ∀ y ∈ l, lastKept < y) :
    ∀ x ∈ enforceAux d lastKept l, (lastKept : ℤ) + d ≤ (x : ℤ) := by
  induction l generalizing lastKept with
  | nil => intro x hx; cases hx
  | cons p rest ih =>
    have hp : (lastKept : ℤ) < (p : ℤ) := by
      exact_mod_cast hgt p (List.mem_cons_self p rest)
    have hrest : rest.Pairwise (· < ·) := (List.pairwise_cons.mp hsort).2
    intro x hx
    unfold enforceAux at hx
    split at hx
    · rename_i hkeep
      rcases List.mem_cons.mp hx with h | h
      · subst h; omega
      · have hgt2 : ∀ y ∈ rest, p < y := (List.pairwise_cons.mp hsort).1
        have := ih p hrest hgt2 x h
        omega
    · exact ih lastKept hrest (fun y hy => hgt y (List.mem_cons_of_mem p hy)) x hx

theorem enforceAux_pairwise (d : ℤ) (lastKept : ℕ) (l : List ℕ)
    (hsort : l.Pairwise (· < ·)) :
    (enforceAux d lastKept l).Pairwise (fun a b : ℕ => (a : ℤ) + d ≤ (b : ℤ)) := by
  induction l generalizing lastKept with
  | nil => exact List.Pairwise.nil
  | cons p rest ih =>
    have hrest : rest.Pairwise (· < ·) := (List.pairwise_cons.mp hsort).2
    have hgt2 : ∀ y ∈ rest, p < y := (List.pairwise_cons.mp hsort).1
    unfold enforceAux
    split
    · exact List.pairwise_cons.mpr
        ⟨enforceAux_mem_ge d p rest hrest hgt2, ih p hrest⟩
    · exact ih lastKept hrest

theorem enforce_min_distance_pairwise_gap (l : List ℕ) (d : ℤ)
    (hsort : l.Pairwise (· < ·)) :
    (enforce_min_distance l d).Pairwise (fun a b : ℕ => (a : ℤ) + d ≤ (b : ℤ)) := by
  cases l with
  | nil => exact List.Pairwise.nil
  | cons p rest =>
    have hrest : rest.Pairwise (· < ·) := (List.pairwise_cons.mp hsort).2
    have hgt2 : ∀ y ∈ rest, p < y := (List.pairwise_cons.mp hsort).1
    exact List.pairwise_cons.mpr
      ⟨enforceAux_mem_ge d p rest hrest hgt2, enforceAux_pairwise d p rest hrest⟩

theorem enforce_min_distance_pairwise_lt (l : List ℕ) (d : ℤ)
    (hsort : l.Pairwise (· < ·)) :
    (enforce_min_distance l d).Pairwise (· < ·) :=
  List.Pairwise.sublist (enforce_min_distance_sublist l d) hsort

theorem detectCandidates_pairwise_lt (signal : List ℚ) (t : ℚ) :
    (detectCandidates signal t).Pairwise (· < ·) :=
  (List.pairwise_lt_range signal.length).filter _

/-! ## Arithmetic helpers for the circular buffer -/

theorem getD_set_ne (l : List ℚ) (i j : ℕ) (x : ℚ) (h : i ≠ j) :
    (l.set i x).getD j 0 = l.getD j 0 := by
  rw [List.getD_eq_getElem?_getD, List.getD_eq_getElem?_getD,
    List.getElem?_set_ne h]

theorem mod_ne_of_small_gap {B p sc : ℕ} (hp2 : p + 2 ≤ sc)
    (hiv : sc < B ∨ sc - p < B / 2) : sc % B ≠ p % B := by
  intro he
  rcases Nat.eq_zero_or_pos B with hB | hB
  · subst hB
    simp only [Nat.mod_zero] at he
    omega
  · have hmod : p ≡ sc [MOD B] := by
      unfold Nat.ModEq
      omega
    have hdvd : B ∣ sc - p := (Nat.modEq_iff_dvd' (by omega)).mp hmod
    have hle : B ≤ sc - p := Nat.le_of_dvd (by omega) hdvd
    have hhalf : B / 2 < B := Nat.div_lt_self hB (by omega)
    omega

theorem current_index_eq {B sc : ℕ} (h2 : 2 ≤ sc) :
    (sc % B + B - 2) % B = (sc - 2) % B := by
  rcases Nat.eq_zero_or_pos B with hB | hB
  · subst hB
    simp only [Nat.mod_zero]
    omega
  · rcases Nat.lt_or_ge B 2 with hB2 | hB2
    · have hB1 : B = 1 := by omega
      subst hB1
      simp [Nat.mod_one]
    · have ha : sc % B + B - 2 = sc % B + (B - 2) := by omega
      rw [ha, Nat.mod_add_mod]
      have hb : sc + (B - 2) = (sc - 2) + B := by omega
      rw [hb, Nat.add_mod_right]

/-! ## The streaming invariant -/

/-- What is always true of a pending candidate `(p, v)`: it was discovered
at least two samples in, and the buffer slot `p % buffer_size` still holds
its recorded value `v`. -/
def pendingOK (cfg : StreamConfig) (sc : ℕ) (buffer : List ℚ)
    (pk : ℕ × ℚ) : Prop :=
  1 ≤ pk.1 ∧ pk.1 + 2 ≤ sc ∧ buffer.getD (pk.1 % cfg.buffer_size) 0 = pk.2

/-- Between ingestions a pending candidate is young: either the window has
not yet filled, or its age has not reached `buffer_size // 2` (otherwise
the last processing pass would have resolved it). -/
def pendingYoung (cfg : StreamConfig) (sc : ℕ) (pk : ℕ × ℚ) : Prop :=
  sc < cfg.buffer_size ∨ sc - pk.1 < cfg.buffer_size / 2

/-- The state invariant of `PeakDetectorSingleSample`, holding after every
`add_sample` call. -/
def Inv (cfg : StreamConfig) (s : StreamState) : Prop :=
  s.buffer.length = cfg.buffer_size ∧
  s.buffer_index = s.sample_count % cfg.buffer_size ∧
  s.potential_peaks.Pairwise (fun a b => a.1 < b.1) ∧
  (∀ pk ∈ s.potential_peaks, pendingOK cfg s.sample_count s.buffer pk) ∧
  (∀ pk ∈ s.potential_peaks, pendingYoung cfg s.sample_count pk) ∧
  s.confirmed_peaks.Pairwise (fun a b => a.1 < b.1) ∧
  (∀ q ∈ s.confirmed_peaks, q.1 + 2 ≤ s.sample_count) ∧
  (∀ q ∈ s.confirmed_peaks, ∀ pk ∈ s.potential_peaks, q.1 < pk.1)

theorem Inv_initState (cfg : StreamConfig) : Inv cfg (initState cfg) := by
  refine ⟨?_, ?_, ?_, ?_, ?_, ?_, ?_, ?_⟩ <;>
    simp [initState, pendingOK, pendingYoung]

/-! ## processLoop characterizations -/

theorem processLoop_nil (cfg : StreamConfig) (buf : List ℚ) (sc : ℕ)
    (np conf : List (ℕ × ℚ)) :
    processLoop cfg buf sc [] np conf = (np, conf) := rfl

theorem processLoop_cons (cfg : StreamConfig) (buf : List ℚ) (sc : ℕ)
    (pk : ℕ × ℚ) (rest np conf : List (ℕ × ℚ)) :
    processLoop cfg buf sc (pk :: rest) np conf
      = if ((cfg.buffer_size / 2 : ℕ) : ℤ) ≤ (sc : ℤ) - (pk.1 : ℤ) then
          if check_peak_validity cfg buf conf pk then
            processLoop cfg buf sc rest np (conf ++ [pk])
          else processLoop cfg buf sc rest np conf
        else processLoop cfg buf sc rest (np ++ [pk]) conf := rfl

theorem processLoop_pending (cfg : StreamConfig) (buf : List ℚ) (sc : ℕ)
    (Q np conf : List (ℕ × ℚ)) :
    (processLoop cfg buf sc Q np conf).1
      = np ++ Q.filter
          (fun pk => !decide (((cfg.buffer_size / 2 : ℕ) : ℤ)
            ≤ (sc : ℤ) - (pk.1 : ℤ))) := by
  induction Q generalizing np conf with
  | nil => simp [processLoop_nil]
  | cons pk rest ih =>
    rw [processLoop_cons]
    split
    · rename_i hage
      have hflt : List.filter
          (fun pk => !decide (((cfg.buffer_size / 2 : ℕ) : ℤ)
            ≤ (sc : ℤ) - (pk.1 : ℤ))) (pk :: rest)
          = List.filter (fun pk => !decide (((cfg.buffer_size / 2 : ℕ) : ℤ)
            ≤ (sc : ℤ) - (pk.1 : ℤ))) rest := by
        rw [List.filter_cons,
          if_neg (by simpa using hage)]
      rw [hflt]
      split
      · exact ih np (conf ++ [pk])
      · exact ih np conf
    · rename_i hage
      rw [List.filter_cons,
        if_pos (by simpa using hage)]
      rw [ih (np ++ [pk]) conf, List.append_assoc]
      rfl

theorem processLoop_confirmed_extends (cfg : StreamConfig) (buf : List ℚ)
    (sc : ℕ) (Q np conf : List (ℕ × ℚ)) :
    ∃ t, (processLoop cfg buf sc Q np conf).2 = conf ++ t ∧
      ∀ pk ∈ t, pk ∈ Q ∧
        ((cfg.buffer_size / 2 : ℕ) : ℤ) ≤ (sc : ℤ) - (pk.1 : ℤ) := by
  induction Q generalizing np conf with
  | nil => exact ⟨[], by simp [processLoop_nil]⟩
  | cons pk rest ih =>
    rw [processLoop_cons]
    split
    · rename_i hage
      split
      · obtain ⟨t, ht, hmem⟩ := ih np (conf ++ [pk])
        refine ⟨pk :: t, ?_, ?_⟩
        · rw [ht, List.append_assoc]
          rfl
        · intro q hq
          rcases List.mem_cons.mp hq with h | h
          · subst h
            exact ⟨List.mem_cons_self _ _, hage⟩
          · exact ⟨List.mem_cons_of_mem pk (hmem q h).1, (hmem q h).2⟩
      · obtain ⟨t, ht, hmem⟩ := ih np conf
        exact ⟨t, ht, fun q hq =>
          ⟨List.mem_cons_of_mem pk (hmem q hq).1, (hmem q hq).2⟩⟩
    · obtain ⟨t, ht, hmem⟩ := ih (np ++ [pk]) conf
      exact ⟨t, ht, fun q hq =>
        ⟨List.mem_cons_of_mem pk (hmem q hq).1, (hmem q hq).2⟩⟩

theorem processLoop_confirmed_sorted (cfg : StreamConfig) (buf : List ℚ)
    (sc : ℕ) (Q : List (ℕ × ℚ)) :
    ∀ np conf : List (ℕ × ℚ),
      conf.Pairwise (fun a b => a.1 < b.1) →
      (∀ q ∈ conf, ∀ pk ∈ Q, q.1 < pk.1) →
      Q.Pairwise (fun a b => a.1 < b.1) →
      (processLoop cfg buf sc Q np conf).2.Pairwise (fun a b => a.1 < b.1) := by
  induction Q with
  | nil => intro np conf hc _ _; exact hc
  | cons pk rest ih =>
    intro np conf hc hcq hQ
    have hrest : rest.Pairwise (fun a b => a.1 < b.1) :=
      (List.pairwise_cons.mp hQ).2
    have hheadrest : ∀ y ∈ rest, pk.1 < y.1 := (List.pairwise_cons.mp hQ).1
    rw [processLoop_cons]
    split
    · split
      · refine ih np (conf ++ [pk]) ?_ ?_ hrest
        · rw [List.pairwise_append]
          refine ⟨hc, List.pairwise_singleton _ _, ?_⟩
          intro a ha b hb
          rw [List.mem_singleton] at hb
          rw [hb]
          exact hcq a ha pk (List.mem_cons_self _ _)
        · intro q hq p2 hp2
          rcases List.mem_append.mp hq with h | h
          · exact hcq q h p2 (List.mem_cons_of_mem pk hp2)
          · rw [List.mem_singleton] at h
            rw [h]
            exact hheadrest p2 hp2
      · exact ih np conf hc
          (fun q hq p2 hp2 => hcq q hq p2 (List.mem_cons_of_mem pk hp2)) hrest
    · exact ih (np ++ [pk]) conf hc
        (fun q hq p2 hp2 => hcq q hq p2 (List.mem_cons_of_mem pk hp2)) hrest

theorem processPeaks_potential (cfg : StreamConfig) (s : StreamState) :
    (processPeaks cfg s).potential_peaks
      = (processLoop cfg s.buffer s.sample_count s.potential_peaks []
          s.confirmed_peaks).1 := rfl

theorem processPeaks_confirmed (cfg : StreamConfig) (s : StreamState) :
    (processPeaks cfg s).confirmed_peaks
      = (processLoop cfg s.buffer s.sample_count s.potential_peaks []
          s.confirmed_peaks).2 := rfl

/-- After the write and candidate-scan stages, the pending queue is either
unchanged or extended by the candidate `(sample_count - 1, value)` read
back from the slot it was just compared at. -/
theorem scanStage_pending_cases (cfg : StreamConfig) (s : StreamState) (x : ℚ)
    (hbi : s.buffer_index = s.sample_count % cfg.buffer_size) :
    (scanStage cfg s x).potential_peaks = s.potential_peaks ∨
    (3 ≤ s.sample_count + 1 ∧
      (scanStage cfg s x).potential_peaks
        = s.potential_peaks ++
          [(s.sample_count - 1,
            (s.buffer.set s.buffer_index x).getD
              ((s.sample_count - 1) % cfg.buffer_size) 0)]) := by
  unfold scanStage
  dsimp only
  split
  · rename_i h3
    simp only [writeSample] at h3 ⊢
    unfold checkPotential
    dsimp only
    have hcur : ((s.buffer_index + 1) % cfg.buffer_size + cfg.buffer_size - 2)
        % cfg.buffer_size = (s.sample_count + 1 - 2) % cfg.buffer_size := by
      rw [hbi, Nat.mod_add_mod]
      exact current_index_eq (by omega)
    split
    · right
      refine ⟨h3, ?_⟩
      rw [hcur]
      have : s.sample_count + 1 - 2 = s.sample_count - 1 := by omega
      rw [this]
    · left; rfl
  · left; rfl

theorem pendingOK_write (cfg : StreamConfig) (s : StreamState) (x : ℚ)
    (hbi : s.buffer_index = s.sample_count % cfg.buffer_size) (pk : ℕ × ℚ)
    (hok : pendingOK cfg s.sample_count s.buffer pk)
    (hy : pendingYoung cfg s.sample_count pk) :
    pendingOK cfg (s.sample_count + 1) (s.buffer.set s.buffer_index x) pk := by
  obtain ⟨h1, h2, h3⟩ := hok
  refine ⟨h1, by omega, ?_⟩
  rw [hbi, getD_set_ne _ _ _ _ (mod_ne_of_small_gap h2 hy)]
  exact h3

/-- The invariant is preserved by every ingestion. -/
theorem Inv_add_sample (cfg : StreamConfig) (s : StreamState) (x : ℚ)
    (hInv : Inv cfg s) : Inv cfg (add_sample cfg s x) := by
  obtain ⟨hlen, hbi, hpsort, hpok, hpy, hcsort, hcb, hcp⟩ := hInv
  have hbuf2 : (scanStage cfg s x).buffer = s.buffer.set s.buffer_index x :=
    scanStage_buffer cfg s x
  have hlen2 : (scanStage cfg s x).buffer.length = cfg.buffer_size := by
    rw [hbuf2, List.length_set, hlen]
  have hsc2 : (scanStage cfg s x).sample_count = s.sample_count + 1 :=
    scanStage_sample_count cfg s x
  have hbi2 : (scanStage cfg s x).buffer_index
      = (scanStage cfg s x).sample_count % cfg.buffer_size := by
    rw [scanStage_buffer_index, hsc2, hbi, Nat.mod_add_mod]
  have hconf2 : (scanStage cfg s x).confirmed_peaks = s.confirmed_peaks :=
    scanStage_confirmed cfg s x
  have hpend := scanStage_pending_cases cfg s x hbi
  have hpok2 : ∀ pk ∈ (scanStage cfg s x).potential_peaks,
      pendingOK cfg (s.sample_count + 1) (scanStage cfg s x).buffer pk := by
    rw [hbuf2]
    rcases hpend with h | ⟨h3, h⟩ <;> rw [h]
    · exact fun pk hpk => pendingOK_write cfg s x hbi pk (hpok pk hpk) (hpy pk hpk)
    · intro pk hpk
      rcases List.mem_append.mp hpk with hm | hm
      · exact pendingOK_write cfg s x hbi pk (hpok pk hm) (hpy pk hm)
      · rw [List.mem_singleton] at hm
        subst hm
        exact ⟨by omega, by omega, rfl⟩
  have hpsort2 : (scanStage cfg s x).potential_peaks.Pairwise
      (fun a b => a.1 < b.1) := by
    rcases hpend with h | ⟨h3, h⟩ <;> rw [h]
    · exact hpsort
    · rw [List.pairwise_append]
      refine ⟨hpsort, List.pairwise_singleton _ _, ?_⟩
      intro a ha b hb
      rw [List.mem_singleton] at hb
      subst hb
      have := (hpok a ha).2.1
      simp only
      omega
  have hcp2 : ∀ q ∈ (scanStage cfg s x).confirmed_peaks,
      ∀ pk ∈ (scanStage cfg s x).potential_peaks, q.1 < pk.1 := by
    rw [hconf2]
    rcases hpend with h | ⟨h3, h⟩ <;> rw [h]
    · exact hcp
    · intro q hq pk hpk
      rcases List.mem_append.mp hpk with hm | hm
      · exact hcp q hq pk hm
      · rw [List.mem_singleton] at hm
        subst hm
        have := hcb q hq
        simp only
        omega
  have hcb2 : ∀ q ∈ (scanStage cfg s x).confirmed_peaks,
      q.1 + 2 ≤ s.sample_count := by
    rw [hconf2]; exact hcb
  have hcsort2 : (scanStage cfg s x).confirmed_peaks.Pairwise
      (fun a b => a.1 < b.1) := by
    rw [hconf2]; exact hcsort
  rw [add_sample_cases]
  split
  · rename_i hProc
    have hpendP := processLoop_pending cfg (scanStage cfg s x).buffer
      (scanStage cfg s x).sample_count (scanStage cfg s x).potential_peaks []
      (scanStage cfg s x).confirmed_peaks
    obtain ⟨t, ht, htmem⟩ := processLoop_confirmed_extends cfg
      (scanStage cfg s x).buffer (scanStage cfg s x).sample_count
      (scanStage cfg s x).potential_peaks [] (scanStage cfg s x).confirmed_peaks
    rw [List.nil_append] at hpendP
    refine ⟨?_, ?_, ?_, ?_, ?_, ?_, ?_, ?_⟩
    · rw [processPeaks_buffer]; exact hlen2
    · rw [processPeaks_buffer_index, processPeaks_sample_count]; exact hbi2
    · rw [processPeaks_potential, hpendP]
      exact hpsort2.filter _
    · rw [processPeaks_potential, hpendP, processPeaks_sample_count,
        processPeaks_buffer, hsc2]
      intro pk hpk
      exact hpok2 pk (List.mem_filter.mp hpk).1
    · rw [processPeaks_potential, hpendP, processPeaks_sample_count, hsc2]
      intro pk hpk
      have hm := List.mem_filter.mp hpk
      have hcond := hm.2
      simp only [Bool.not_eq_true', decide_eq_false_iff_not, not_le] at hcond
      have hb2 := (hpok2 pk hm.1).2.1
      right
      omega
    · rw [processPeaks_confirmed]
      exact processLoop_confirmed_sorted cfg _ _ _ [] _ hcsort2 hcp2 hpsort2
    · rw [processPeaks_confirmed, processPeaks_sample_count, ht, hsc2]
      intro q hq
      rcases List.mem_append.mp hq with hm | hm
      · have := hcb2 q hm
        omega
      · exact (hpok2 q (htmem q hm).1).2.1
    · rw [processPeaks_confirmed, processPeaks_potential, ht, hpendP]
      intro q hq pk hpk
      have hmf := List.mem_filter.mp hpk
      rcases List.mem_append.mp hq with hm | hm
      · exact hcp2 q hm pk hmf.1
      · have hqage := (htmem q hm).2
        have hcond := hmf.2
        simp only [Bool.not_eq_true', decide_eq_false_iff_not, not_le] at hcond
        omega
  · rename_i hProc
    refine ⟨hlen2, hbi2, hpsort2, ?_, ?_, hcsort2, ?_, hcp2⟩
    · rw [hsc2]; exact hpok2
    · intro pk _
      left
      rw [hsc2]
      omega
    · intro q hq
      have := hcb2 q hq
      rw [hsc2]
      omega

theorem Inv_streamRunFrom (cfg : StreamConfig) (s : StreamState)
    (samples : List ℚ) (hInv : Inv cfg s) :
    Inv cfg (streamRunFrom cfg s samples) := by
  induction samples generalizing s with
  | nil => exact hInv
  | cons y ys ih =>
    exact ih (add_sample cfg s y) (Inv_add_sample cfg s y hInv)

theorem Inv_streamRun (cfg : StreamConfig) (samples : List ℚ) :
    Inv cfg (streamRun cfg samples) :=
  Inv_streamRunFrom cfg (initState cfg) samples (Inv_initState cfg)

theorem detect_peaks_peaks (cfg : BatchConfig) (signal : List ℚ) :
    (detect_peaks cfg signal).peaks
      = enforce_min_distance (detectCandidates signal cfg.threshold)
          cfg.min_distance := rfl

theorem add_sample_confirmed_extends (cfg : StreamConfig) (s : StreamState)
    (x : ℚ) :
    ∃ t, (add_sample cfg s x).confirmed_peaks = s.confirmed_peaks ++ t := by
  rw [add_sample_cases]
  split
  · rw [processPeaks_confirmed]
    obtain ⟨t, ht, _⟩ := processLoop_confirmed_extends cfg
      (scanStage cfg s x).buffer (scanStage cfg s x).sample_count
      (scanStage cfg s x).potential_peaks [] (scanStage cfg s x).confirmed_peaks
    rw [ht, scanStage_confirmed]
    exact ⟨t, rfl⟩
  · exact ⟨[], by rw [scanStage_confirmed, List.append_nil]⟩

theorem streamRun_append_one (cfg : StreamConfig) (samples : List ℚ) (x : ℚ) :
    streamRun cfg (samples ++ [x]) = add_sample cfg (streamRun cfg samples) x := by
  rw [streamRun, streamRunFrom_append]
  rfl

/-- C7: peak positions are strictly increasing for both detectors, and the
streaming confirmed list only ever grows by appending. -/
theorem C7_strictly_increasing_append_only :
    (∀ (cfg : BatchConfig) (signal : List ℚ),
      ((detect_peaks cfg signal).peaks).Pairwise (· < ·)) ∧
    (∀ (cfg : StreamConfig) (samples : List ℚ),
      ((streamRun cfg samples).confirmed_peaks).Pairwise
        (fun a b => a.1 < b.1)) ∧
    (∀ (cfg : StreamConfig) (samples : List ℚ) (x : ℚ),
      ∃ t, (streamRun cfg (samples ++ [x])).confirmed_peaks
        = (streamRun cfg samples).confirmed_peaks ++ t) := by
  refine ⟨?_, ?_, ?_⟩
  · intro cfg signal
    rw [detect_peaks_peaks]
    exact enforce_min_distance_pairwise_lt _ _ (detectCandidates_pairwise_lt _ _)
  · intro cfg samples
    exact (Inv_streamRun cfg samples).2.2.2.2.2.1
  · intro cfg samples x
    rw [streamRun_append_one]
    exact add_sample_confirmed_extends cfg (streamRun cfg samples) x

/-- C3 (amended): a pending candidate at position `p` is resolved exactly
at the first ingestion at which both `sample_count ≥ buffer_size` and its
age `sample_count − p` has reached `buffer_size // 2`; in particular a
candidate confirmed by that ingestion satisfies both conditions. -/
theorem C3_amended_resolution (cfg : StreamConfig) (samples : List ℚ) (x : ℚ)
    (p : ℕ) (v : ℚ)
    (hmem : (p, v) ∈ (streamRun cfg samples).potential_peaks) :
    ((p, v) ∉ (streamRun cfg (samples ++ [x])).potential_peaks ↔
      (cfg.buffer_size ≤ (streamRun cfg (samples ++ [x])).sample_count ∧
        ((cfg.buffer_size / 2 : ℕ) : ℤ)
          ≤ ((streamRun cfg (samples ++ [x])).sample_count : ℤ) - (p : ℤ))) ∧
    ((p, v) ∈ (streamRun cfg (samples ++ [x])).confirmed_peaks →
      (cfg.buffer_size ≤ (streamRun cfg (samples ++ [x])).sample_count ∧
        ((cfg.buffer_size / 2 : ℕ) : ℤ)
          ≤ ((streamRun cfg (samples ++ [x])).sample_count : ℤ) - (p : ℤ))) := by
  obtain ⟨hlen, hbi, hpsort, hpok, hpy, hcsort, hcb, hcp⟩ :=
    Inv_streamRun cfg samples
  rw [streamRun_append_one]
  have hsc' : (add_sample cfg (streamRun cfg samples) x).sample_count
      = (streamRun cfg samples).sample_count + 1 :=
    add_sample_sample_count cfg _ x
  have hmem2 : (p, v) ∈ (scanStage cfg (streamRun cfg samples) x).potential_peaks := by
    rcases scanStage_pending_cases cfg (streamRun cfg samples) x hbi with h | ⟨_, h⟩ <;>
      rw [h]
    · exact hmem
    · exact List.mem_append.mpr (Or.inl hmem)
  have hnotconf : (p, v) ∉ (streamRun cfg samples).confirmed_peaks := by
    intro hc
    exact absurd (hcp (p, v) hc (p, v) hmem) (by omega)
  rw [hsc', add_sample_cases]
  split
  · rename_i hProc
    have hsc2 : (scanStage cfg (streamRun cfg samples) x).sample_count
        = (streamRun cfg samples).sample_count + 1 :=
      scanStage_sample_count cfg _ x
    have hpendP := processLoop_pending cfg
      (scanStage cfg (streamRun cfg samples) x).buffer
      (scanStage cfg (streamRun cfg samples) x).sample_count
      (scanStage cfg (streamRun cfg samples) x).potential_peaks []
      (scanStage cfg (streamRun cfg samples) x).confirmed_peaks
    rw [List.nil_append] at hpendP
    obtain ⟨t, ht, htmem⟩ := processLoop_confirmed_extends cfg
      (scanStage cfg (streamRun cfg samples) x).buffer
      (scanStage cfg (streamRun cfg samples) x).sample_count
      (scanStage cfg (streamRun cfg samples) x).potential_peaks []
      (scanStage cfg (streamRun cfg samples) x).confirmed_peaks
    constructor
    · rw [processPeaks_potential, hpendP, hsc2]
      constructor
      · intro hnot
        refine ⟨hProc, ?_⟩
        by_contra hage
        apply hnot
        rw [List.mem_filter]
        refine ⟨hmem2, ?_⟩
        simp only [Bool.not_eq_true', decide_eq_false_iff_not, not_le]
        push_cast
        omega
      · intro ⟨_, hage⟩ hin
        have := (List.mem_filter.mp hin).2
        simp only [Bool.not_eq_true', decide_eq_false_iff_not, not_le] at this
        push_cast at this
        omega
    · intro hconf
      rw [processPeaks_confirmed, ht, scanStage_confirmed] at hconf
      rcases List.mem_append.mp hconf with hm | hm
      · exact absurd hm hnotconf
      · refine ⟨hProc, ?_⟩
        have := (htmem _ hm).2
        rw [hsc2] at this
        push_cast at this ⊢
        omega
  · rename_i hProc
    constructor
    · constructor
      · intro hnot
        exact absurd hmem2 hnot
      · intro ⟨hB, _⟩
        exact absurd hB hProc
    · intro hconf
      rw [scanStage_confirmed] at hconf
      exact absurd hconf hnotconf

/-- C6 (amended): the distance filter keeps the first candidate, and any
two retained candidates are at least `min_distance` apart — so of two
candidates closer than `min_distance` at most one survives; which one is
decided by the greedy left-to-right scan (the earlier of the pair may
itself have been dropped against a still-earlier kept candidate). -/
theorem C6_amended_greedy (l : List ℕ) (d : ℤ) (hsort : l.Pairwise (· < ·)) :
    (enforce_min_distance l d).head? = l.head? ∧
    (enforce_min_distance l d).Sublist l ∧
    ∀ x ∈ enforce_min_distance l d, ∀ y ∈ enforce_min_distance l d,
      x < y → d ≤ (y : ℤ) - (x : ℤ) := by
  refine ⟨?_, enforce_min_distance_sublist l d, ?_⟩
  · cases l <;> rfl
  · intro x hx y hy hxy
    have hlt := enforce_min_distance_pairwise_lt l d hsort
    have hgap := enforce_min_distance_pairwise_gap l d hsort
    have hS : (enforce_min_distance l d).Pairwise
        (fun a b : ℕ => (a < b → d ≤ (b : ℤ) - (a : ℤ)) ∧
          (b < a → d ≤ (a : ℤ) - (b : ℤ))) := by
      refine (hlt.and hgap).imp ?_
      rintro a b ⟨h1, h2⟩
      exact ⟨fun _ => by omega, fun hba => absurd h1 (by omega)⟩
    have hsym : Symmetric (fun a b : ℕ => (a < b → d ≤ (b : ℤ) - (a : ℤ)) ∧
        (b < a → d ≤ (a : ℤ) - (b : ℤ))) := by
      intro a b h
      exact ⟨h.2, h.1⟩
    exact (List.Pairwise.forall hsym hS hx hy (Nat.ne_of_lt hxy)).1 hxy

/-- Witness for the amended C6 at the concrete input `[0,2,3]`,
`min_distance = 3`. -/
theorem C6_amended_greedy_witness :
    ([0, 2, 3] : List ℕ).Pairwise (· < ·) ∧
    ((enforce_min_distance [0, 2, 3] 3).head? = ([0, 2, 3] : List ℕ).head? ∧
      (enforce_min_distance [0, 2, 3] 3).Sublist [0, 2, 3] ∧
      ∀ x ∈ enforce_min_distance [0, 2, 3] 3,
        ∀ y ∈ enforce_min_distance [0, 2, 3] 3,
          x < y → (3 : ℤ) ≤ (y : ℤ) - (x : ℤ)) :=
  ⟨by decide, C6_amended_greedy [0, 2, 3] 3 (by decide)⟩

/-- C8: for a pending candidate `(p, v)` that the next ingestion resolves,
the streaming prominence computed by the check is `v` minus the minimum of
the whole current window (both sides collapse to that same minimum), the
quantity is never negative (the candidate's own sample is still in the
window), and the prominence stage of `_check_peak_validity` rejects the
candidate exactly when the filter is set to some `c` with
`v − min(window) < c`. -/
theorem C8_streaming_prominence (cfg : StreamConfig)
    (hB : 1 ≤ cfg.buffer_size) (samples : List ℚ) (x : ℚ) (p : ℕ) (v : ℚ)
    (hmem : (p, v) ∈ (streamRun cfg samples).potential_peaks)
    (hres : cfg.buffer_size ≤ (streamRun cfg samples).sample_count + 1 ∧
      ((cfg.buffer_size / 2 : ℕ) : ℤ)
        ≤ ((streamRun cfg samples).sample_count : ℤ) + 1 - (p : ℤ)) :
    streamProminence cfg (streamRun cfg (samples ++ [x])).buffer (p, v)
      = v - listMin (streamRun cfg (samples ++ [x])).buffer ∧
    0 ≤ v - listMin (streamRun cfg (samples ++ [x])).buffer ∧
    (promPasses cfg (streamRun cfg (samples ++ [x])).buffer (p, v) = false ↔
      ∃ c, cfg.prominence = some c ∧
        v - listMin (streamRun cfg (samples ++ [x])).buffer < c) := by
  obtain ⟨hlen, hbi, hpsort, hpok, hpy, hcsort, hcb, hcp⟩ :=
    Inv_streamRun cfg samples
  have hbufeq : (streamRun cfg (samples ++ [x])).buffer
      = (streamRun cfg samples).buffer.set (streamRun cfg samples).buffer_index x := by
    rw [streamRun_append_one, add_sample_buffer]
  have hlen2 : (streamRun cfg (samples ++ [x])).buffer.length = cfg.buffer_size := by
    rw [hbufeq, List.length_set, hlen]
  have hslot : (streamRun cfg (samples ++ [x])).buffer.getD
      (p % cfg.buffer_size) 0 = v := by
    rw [hbufeq]
    exact (pendingOK_write cfg (streamRun cfg samples) x hbi (p, v)
      (hpok _ hmem) (hpy _ hmem)).2.2
  have hne : (streamRun cfg (samples ++ [x])).buffer ≠ [] := by
    intro h
    rw [h] at hlen2
    simp only [List.length_nil] at hlen2
    omega
  have hprom : streamProminence cfg (streamRun cfg (samples ++ [x])).buffer (p, v)
      = v - listMin (streamRun cfg (samples ++ [x])).buffer := by
    unfold streamProminence
    dsimp only
    rw [max_self, listMin_rotate _ _ hne]
  have hminle : listMin (streamRun cfg (samples ++ [x])).buffer ≤ v := by
    have hidx : p % cfg.buffer_size
        < (streamRun cfg (samples ++ [x])).buffer.length := by
      rw [hlen2]
      exact Nat.mod_lt _ (by omega)
    rw [← hslot, List.getD_eq_getElem _ 0 hidx]
    exact listMin_le_mem _ _ (List.getElem_mem hidx)
  refine ⟨hprom, by linarith, ?_⟩
  unfold promPasses
  rcases hcfg : cfg.prominence with _ | c
  · simp
  · dsimp only
    split
    · rename_i hc0
      rw [hprom]
      constructor
      · intro hdec
        simp only [decide_eq_false_iff_not, not_le] at hdec
        exact ⟨c, rfl, hdec⟩
      · intro ⟨c2, hc2, hlt⟩
        have : c2 = c := by
          exact (Option.some_inj.mp hc2).symm
        subst this
        simp only [decide_eq_false_iff_not, not_le]
        exact hlt
    · rename_i hc0
      push_neg at hc0
      subst hc0
      constructor
      · intro h
        cases h
      · intro ⟨c2, hc2, hlt⟩
        have : c2 = 0 := by
          exact (Option.some_inj.mp hc2).symm
        subst this
        rw [hprom] at *
        linarith

/-- Witness for C8 at `buffer_size = 4`, `prominence = 2`, stream
`[0,1,0]` plus a fourth sample `0`, resolving the candidate `(1, 1)`. -/
theorem C8_streaming_prominence_witness :
    ((1, (1 : ℚ)) ∈ (streamRun (StreamConfig.mk 4 0 1 (some 2) none)
        [0, 1, 0]).potential_peaks) ∧
    (streamProminence (StreamConfig.mk 4 0 1 (some 2) none)
        (streamRun (StreamConfig.mk 4 0 1 (some 2) none) ([0, 1, 0] ++ [0])).buffer (1, 1)
      = 1 - listMin (streamRun (StreamConfig.mk 4 0 1 (some 2) none)
          ([0, 1, 0] ++ [0])).buffer ∧
    0 ≤ 1 - listMin (streamRun (StreamConfig.mk 4 0 1 (some 2) none)
        ([0, 1, 0] ++ [0])).buffer ∧
    (promPasses (StreamConfig.mk 4 0 1 (some 2) none)
        (streamRun (StreamConfig.mk 4 0 1 (some 2) none) ([0, 1, 0] ++ [0])).buffer (1, 1)
          = false ↔
      ∃ c, (StreamConfig.mk 4 0 1 (some 2) none).prominence = some c ∧
        1 - listMin (streamRun (StreamConfig.mk 4 0 1 (some 2) none)
          ([0, 1, 0] ++ [0])).buffer < c)) := by
  have hmem : (1, (1 : ℚ)) ∈ (streamRun (StreamConfig.mk 4 0 1 (some 2) none)
      [0, 1, 0]).potential_peaks := by
    norm_num [streamRun, streamRunFrom, initState, add_sample, scanStage,
      writeSample, checkPotential, processPeaks, processLoop,
      check_peak_validity, distancePasses, promPasses, widthPasses,
      streamProminence, listMin]
  have hres : (StreamConfig.mk 4 0 1 (some 2) none).buffer_size
      ≤ (streamRun (StreamConfig.mk 4 0 1 (some 2) none) [0, 1, 0]).sample_count + 1 ∧
      (((StreamConfig.mk 4 0 1 (some 2) none).buffer_size / 2 : ℕ) : ℤ)
        ≤ ((streamRun (StreamConfig.mk 4 0 1 (some 2) none)
            [0, 1, 0]).sample_count : ℤ) + 1 - ((1 : ℕ) : ℤ) := by
    constructor <;>
      norm_num [streamRun, streamRunFrom, initState, add_sample, scanStage,
        writeSample, checkPotential, processPeaks, processLoop,
        check_peak_validity, distancePasses, promPasses, widthPasses,
        streamProminence, listMin]
  exact ⟨hmem, C8_streaming_prominence (StreamConfig.mk 4 0 1 (some 2) none)
    (by norm_num) [0, 1, 0] 0 1 1 hmem hres⟩

/-- Witness for the amended C3 at `buffer_size = 4`, stream `[0,1,0]` plus
a fourth sample: the candidate `(1, 1)` is resolved exactly at the fourth
ingestion. -/
theorem C3_amended_resolution_witness :
    ((1, (1 : ℚ)) ∈ (streamRun (StreamConfig.mk 4 0 1 none none)
        [0, 1, 0]).potential_peaks) ∧
    (((1, (1 : ℚ)) ∉ (streamRun (StreamConfig.mk 4 0 1 none none)
        ([0, 1, 0] ++ [0])).potential_peaks ↔
      ((StreamConfig.mk 4 0 1 none none).buffer_size
          ≤ (streamRun (StreamConfig.mk 4 0 1 none none)
              ([0, 1, 0] ++ [0])).sample_count ∧
        (((StreamConfig.mk 4 0 1 none none).buffer_size / 2 : ℕ) : ℤ)
          ≤ ((streamRun (StreamConfig.mk 4 0 1 none none)
              ([0, 1, 0] ++ [0])).sample_count : ℤ) - ((1 : ℕ) : ℤ))) ∧
    ((1, (1 : ℚ)) ∈ (streamRun (StreamConfig.mk 4 0 1 none none)
        ([0, 1, 0] ++ [0])).confirmed_peaks →
      ((StreamConfig.mk 4 0 1 none none).buffer_size
          ≤ (streamRun (StreamConfig.mk 4 0 1 none none)
              ([0, 1, 0] ++ [0])).sample_count ∧
        (((StreamConfig.mk 4 0 1 none none).buffer_size / 2 : ℕ) : ℤ)
          ≤ ((streamRun (StreamConfig.mk 4 0 1 none none)
              ([0, 1, 0] ++ [0])).sample_count : ℤ) - ((1 : ℕ) : ℤ)))) := by
  have hmem : (1, (1 : ℚ)) ∈ (streamRun (StreamConfig.mk 4 0 1 none none)
      [0, 1, 0]).potential_peaks := by
    norm_num [streamRun, streamRunFrom, initState, add_sample, scanStage,
      writeSample, checkPotential, processPeaks, processLoop,
      check_peak_validity, distancePasses, promPasses, widthPasses,
      streamProminence, listMin]
  exact ⟨hmem, C3_amended_resolution (StreamConfig.mk 4 0 1 none none)
    [0, 1, 0] 0 1 1 hmem⟩

/-! ## Congruence and monotonicity of the streaming filter stages -/

theorem checkPotential_potential (cfg : StreamConfig) (s : StreamState) :
    (checkPotential cfg s).potential_peaks =
      if s.buffer.getD (((s.buffer_index + cfg.buffer_size - 2) % cfg.buffer_size
            + cfg.buffer_size - 1) % cfg.buffer_size) 0 + cfg.threshold
          < s.buffer.getD ((s.buffer_index + cfg.buffer_size - 2)
            % cfg.buffer_size) 0 ∧
        s.buffer.getD (((s.buffer_index + cfg.buffer_size - 2) % cfg.buffer_size
            + 1) % cfg.buffer_size) 0 + cfg.threshold
          < s.buffer.getD ((s.buffer_index + cfg.buffer_size - 2)
            % cfg.buffer_size) 0
      then s.potential_peaks ++ [(s.sample_count - 2,
        s.buffer.getD ((s.buffer_index + cfg.buffer_size - 2)
          % cfg.buffer_size) 0)]
      else s.potential_peaks := by
  unfold checkPotential
  dsimp only
  split <;> rfl

theorem scanStage_potential (cfg : StreamConfig) (s : StreamState) (x : ℚ) :
    (scanStage cfg s x).potential_peaks =
      if 3 ≤ s.sample_count + 1 then
        (checkPotential cfg (writeSample cfg s x)).potential_peaks
      else s.potential_peaks := by
  unfold scanStage
  dsimp only
  have hsc : (writeSample cfg s x).sample_count = s.sample_count + 1 := rfl
  rw [hsc]
  split <;> rfl

theorem add_sample_potential (cfg : StreamConfig) (s : StreamState) (x : ℚ) :
    (add_sample cfg s x).potential_peaks =
      if cfg.buffer_size ≤ s.sample_count + 1 then
        ((scanStage cfg s x).potential_peaks).filter
          (fun pk => !decide (((cfg.buffer_size / 2 : ℕ) : ℤ)
            ≤ ((s.sample_count + 1 : ℕ) : ℤ) - (pk.1 : ℤ)))
      else (scanStage cfg s x).potential_peaks := by
  rw [add_sample_cases]
  split
  · rw [processPeaks_potential]
    have hp := processLoop_pending cfg (scanStage cfg s x).buffer
      (scanStage cfg s x).sample_count (scanStage cfg s x).potential_peaks []
      (scanStage cfg s x).confirmed_peaks
    rw [List.nil_append] at hp
    rw [hp, scanStage_sample_count]
  · rfl

/-- The fields shared between two runs of detectors that agree on
`buffer_size` and `threshold` (they may differ in the three filter
settings) evolve identically through one ingestion. -/
theorem add_sample_shared (cfg1 cfg2 : StreamConfig)
    (hB : cfg1.buffer_size = cfg2.buffer_size)
    (ht : cfg1.threshold = cfg2.threshold) (s1 s2 : StreamState)
    (h1 : s1.buffer = s2.buffer) (h2 : s1.buffer_index = s2.buffer_index)
    (h3 : s1.sample_count = s2.sample_count)
    (h4 : s1.potential_peaks = s2.potential_peaks) (x : ℚ) :
    (add_sample cfg1 s1 x).buffer = (add_sample cfg2 s2 x).buffer ∧
    (add_sample cfg1 s1 x).buffer_index = (add_sample cfg2 s2 x).buffer_index ∧
    (add_sample cfg1 s1 x).sample_count = (add_sample cfg2 s2 x).sample_count ∧
    (add_sample cfg1 s1 x).potential_peaks
      = (add_sample cfg2 s2 x).potential_peaks := by
  have hscan : (scanStage cfg1 s1 x).potential_peaks
      = (scanStage cfg2 s2 x).potential_peaks := by
    rw [scanStage_potential, scanStage_potential, h3]
    rw [checkPotential_potential, checkPotential_potential]
    simp only [writeSample]
    rw [h1, h2, h3, h4, hB, ht]
  refine ⟨?_, ?_, ?_, ?_⟩
  · rw [add_sample_buffer, add_sample_buffer, h1, h2]
  · rw [add_sample_buffer_index, add_sample_buffer_index, h2, hB]
  · rw [add_sample_sample_count, add_sample_sample_count, h3]
  · rw [add_sample_potential, add_sample_potential, h3, hB, hscan]

theorem streamRun_shared (cfg1 cfg2 : StreamConfig)
    (hB : cfg1.buffer_size = cfg2.buffer_size)
    (ht : cfg1.threshold = cfg2.threshold) (samples : List ℚ) :
    (streamRun cfg1 samples).buffer = (streamRun cfg2 samples).buffer ∧
    (streamRun cfg1 samples).buffer_index = (streamRun cfg2 samples).buffer_index ∧
    (streamRun cfg1 samples).sample_count = (streamRun cfg2 samples).sample_count ∧
    (streamRun cfg1 samples).potential_peaks
      = (streamRun cfg2 samples).potential_peaks := by
  suffices h : ∀ (s1 s2 : StreamState), s1.buffer = s2.buffer →
      s1.buffer_index = s2.buffer_index → s1.sample_count = s2.sample_count →
      s1.potential_peaks = s2.potential_peaks →
      (streamRunFrom cfg1 s1 samples).buffer = (streamRunFrom cfg2 s2 samples).buffer ∧
      (streamRunFrom cfg1 s1 samples).buffer_index
        = (streamRunFrom cfg2 s2 samples).buffer_index ∧
      (streamRunFrom cfg1 s1 samples).sample_count
        = (streamRunFrom cfg2 s2 samples).sample_count ∧
      (streamRunFrom cfg1 s1 samples).potential_peaks
        = (streamRunFrom cfg2 s2 samples).potential_peaks by
    exact h (initState cfg1) (initState cfg2) (by simp [initState, hB])
      rfl rfl rfl
  induction samples with
  | nil => exact fun s1 s2 a b c d => ⟨a, b, c, d⟩
  | cons y ys ih =>
    intro s1 s2 a b c d
    obtain ⟨a2, b2, c2, d2⟩ := add_sample_shared cfg1 cfg2 hB ht s1 s2 a b c d y
    exact ih (add_sample cfg1 s1 y) (add_sample cfg2 s2 y) a2 b2 c2 d2

theorem streamProminence_congr (cfg1 cfg2 : StreamConfig)
    (hB : cfg1.buffer_size = cfg2.buffer_size) (buf : List ℚ) (pk : ℕ × ℚ) :
    streamProminence cfg1 buf pk = streamProminence cfg2 buf pk := by
  unfold streamProminence
  rw [hB]

theorem streamWidth_congr (cfg1 cfg2 : StreamConfig)
    (hB : cfg1.buffer_size = cfg2.buffer_size)
    (ht : cfg1.threshold = cfg2.threshold) (buf : List ℚ) (pk : ℕ × ℚ) :
    streamWidth cfg1 buf pk = streamWidth cfg2 buf pk := by
  unfold streamWidth
  rw [hB, ht]

theorem widthPasses_congr (cfg1 cfg2 : StreamConfig)
    (hB : cfg1.buffer_size = cfg2.buffer_size)
    (ht : cfg1.threshold = cfg2.threshold) (hw : cfg1.width = cfg2.width)
    (buf : List ℚ) (pk : ℕ × ℚ) :
    widthPasses cfg1 buf pk = widthPasses cfg2 buf pk := by
  unfold widthPasses
  rw [hw, streamWidth_congr cfg1 cfg2 hB ht]

theorem promPasses_congr (cfg1 cfg2 : StreamConfig)
    (hB : cfg1.buffer_size = cfg2.buffer_size)
    (hp : cfg1.prominence = cfg2.prominence) (buf : List ℚ) (pk : ℕ × ℚ) :
    promPasses cfg1 buf pk = promPasses cfg2 buf pk := by
  unfold promPasses
  rw [hp, streamProminence_congr cfg1 cfg2 hB]

theorem streamProminence_nonneg (cfg : StreamConfig) (buf : List ℚ)
    (pk : ℕ × ℚ) (hB : 1 ≤ cfg.buffer_size)
    (hlen : buf.length = cfg.buffer_size)
    (hslot : buf.getD (pk.1 % cfg.buffer_size) 0 = pk.2) :
    0 ≤ streamProminence cfg buf pk := by
  have hne : buf ≠ [] := by
    intro h
    rw [h] at hlen
    simp only [List.length_nil] at hlen
    omega
  have hprom : streamProminence cfg buf pk = pk.2 - listMin buf := by
    unfold streamProminence
    dsimp only
    rw [max_self, listMin_rotate _ _ hne]
  have hidx : pk.1 % cfg.buffer_size < buf.length := by
    rw [hlen]
    exact Nat.mod_lt _ (by omega)
  have hle : listMin buf ≤ pk.2 := by
    rw [← hslot, List.getD_eq_getElem _ 0 hidx]
    exact listMin_le_mem _ _ (List.getElem_mem hidx)
  rw [hprom]
  linarith

theorem promPasses_mono (cfg1 cfg2 : StreamConfig) (c1 c2 : ℚ)
    (hp1 : cfg1.prominence = some c1) (hp2 : cfg2.prominence = some c2)
    (hc : c1 ≤ c2) (hB : cfg1.buffer_size = cfg2.buffer_size)
    (buf : List ℚ) (pk : ℕ × ℚ)
    (hnn : 0 ≤ streamProminence cfg1 buf pk)
    (h2 : promPasses cfg2 buf pk = true) : promPasses cfg1 buf pk = true := by
  unfold promPasses at h2 ⊢
  rw [hp1]
  rw [hp2] at h2
  dsimp only at h2 ⊢
  by_cases h10 : c1 ≠ 0
  · rw [if_pos h10]
    simp only [decide_eq_true_eq]
    by_cases h20 : c2 ≠ 0
    · rw [if_pos h20] at h2
      simp only [decide_eq_true_eq] at h2
      rw [streamProminence_congr cfg1 cfg2 hB]
      linarith
    · push_neg at h20
      subst h20
      linarith
  · rw [if_neg h10]

theorem widthPasses_mono (cfg1 cfg2 : StreamConfig) (w1 w2 : ℚ)
    (hw1 : cfg1.width = some w1) (hw2 : cfg2.width = some w2) (hw : w1 ≤ w2)
    (hB : cfg1.buffer_size = cfg2.buffer_size)
    (ht : cfg1.threshold = cfg2.threshold) (buf : List ℚ) (pk : ℕ × ℚ)
    (h2 : widthPasses cfg2 buf pk = true) : widthPasses cfg1 buf pk = true := by
  unfold widthPasses at h2 ⊢
  rw [hw1]
  rw [hw2] at h2
  dsimp only at h2 ⊢
  by_cases h10 : w1 ≠ 0
  · rw [if_pos h10]
    simp only [decide_eq_true_eq]
    rw [streamWidth_congr cfg1 cfg2 hB ht]
    by_cases h20 : w2 ≠ 0
    · rw [if_pos h20] at h2
      simp only [decide_eq_true_eq] at h2
      linarith
    · push_neg at h20
      subst h20
      have : (0 : ℚ) ≤ (streamWidth cfg2 buf pk : ℚ) := Nat.cast_nonneg _
      linarith
  · rw [if_neg h10]

theorem check_peak_validity_eq (cfg : StreamConfig) (buf : List ℚ)
    (conf : List (ℕ × ℚ)) (pk : ℕ × ℚ) :
    check_peak_validity cfg buf conf pk
      = (distancePasses cfg conf pk
          && (promPasses cfg buf pk && widthPasses cfg buf pk)) := by
  unfold check_peak_validity
  rw [Bool.and_assoc]

/-- The relation between the confirmed lists of a lenient run (`c1`) and a
strict run (`c2`): the strict run has confirmed no more peaks, and when
the counts coincide its last confirmed position is no earlier. -/
def confRel (c1 c2 : List (ℕ × ℚ)) : Prop :=
  c2.length ≤ c1.length ∧
  (c2.length = c1.length →
    ∀ l1 ∈ c1.getLast?, ∀ l2 ∈ c2.getLast?, l1.1 ≤ l2.1)

theorem distancePasses_rel (cfg1 cfg2 : StreamConfig)
    (hd : cfg1.min_distance = cfg2.min_distance)
    (conf1 conf2 : List (ℕ × ℚ)) (pk : ℕ × ℚ)
    (hlen : conf2.length = conf1.length)
    (hlast : ∀ l1 ∈ conf1.getLast?, ∀ l2 ∈ conf2.getLast?, l1.1 ≤ l2.1)
    (h2 : distancePasses cfg2 conf2 pk = true) :
    distancePasses cfg1 conf1 pk = true := by
  unfold distancePasses at h2 ⊢
  rw [hd]
  by_cases hd0 : cfg2.min_distance ≠ 0
  · rw [if_pos hd0]
    rw [if_pos hd0] at h2
    cases hc1 : conf1.getLast? with
    | none => simp
    | some l1 =>
      have hne1 : conf1 ≠ [] := by
        intro h
        rw [h] at hc1
        cases hc1
      have hne2 : conf2 ≠ [] := by
        intro h
        rw [h] at hlen
        simp only [List.length_nil] at hlen
        exact hne1 (List.eq_nil_of_length_eq_zero hlen.symm)
      cases hc2 : conf2.getLast? with
      | none => exact absurd (List.getLast?_eq_none_iff.mp hc2) hne2
      | some l2 =>
        rw [hc2] at h2
        simp only [decide_eq_true_eq] at h2
        simp only [decide_eq_true_eq]
        have hl12 : l1.1 ≤ l2.1 := by
          apply hlast l1 _ l2
          · rw [hc2]; rfl
          · rw [hc1]; rfl
        omega
  · rw [if_neg hd0]

/-- Greedy-selection simulation: over the same queue and buffer, a run
whose prominence/width stages reject at least as much confirms at most as
many peaks, and on equal counts its last confirmed position is no
earlier.  The distance stage interacts through `confRel`. -/
theorem processLoop_sim (cfg1 cfg2 : StreamConfig) (buf : List ℚ) (sc : ℕ)
    (hB : cfg1.buffer_size = cfg2.buffer_size)
    (hd : cfg1.min_distance = cfg2.min_distance) (Q : List (ℕ × ℚ)) :
    ∀ (np1 np2 conf1 conf2 : List (ℕ × ℚ)),
      (∀ pk ∈ Q, (promPasses cfg2 buf pk && widthPasses cfg2 buf pk) = true →
        (promPasses cfg1 buf pk && widthPasses cfg1 buf pk) = true) →
      Q.Pairwise (fun a b => a.1 < b.1) →
      (∀ q ∈ conf1, ∀ pk ∈ Q, q.1 < pk.1) →
      confRel conf1 conf2 →
      confRel (processLoop cfg1 buf sc Q np1 conf1).2
        (processLoop cfg2 buf sc Q np2 conf2).2 := by
  induction Q with
  | nil =>
    intro np1 np2 conf1 conf2 _ _ _ hR
    rw [processLoop_nil, processLoop_nil]
    exact hR
  | cons pk rest ih =>
    intro np1 np2 conf1 conf2 hmono hQ hgt hR
    have hmono_rest : ∀ p2 ∈ rest,
        (promPasses cfg2 buf p2 && widthPasses cfg2 buf p2) = true →
        (promPasses cfg1 buf p2 && widthPasses cfg1 buf p2) = true :=
      fun p2 hp2 => hmono p2 (List.mem_cons_of_mem pk hp2)
    have hQrest : rest.Pairwise (fun a b => a.1 < b.1) :=
      (List.pairwise_cons.mp hQ).2
    have hhead : ∀ y ∈ rest, pk.1 < y.1 := (List.pairwise_cons.mp hQ).1
    have hgt_rest : ∀ q ∈ conf1, ∀ p2 ∈ rest, q.1 < p2.1 :=
      fun q hq p2 hp2 => hgt q hq p2 (List.mem_cons_of_mem pk hp2)
    rw [processLoop_cons, processLoop_cons, hB]
    by_cases hage : ((cfg2.buffer_size / 2 : ℕ) : ℤ) ≤ (sc : ℤ) - (pk.1 : ℤ)
    · rw [if_pos hage, if_pos hage, check_peak_validity_eq,
        check_peak_validity_eq]
      by_cases hv2 : (distancePasses cfg2 conf2 pk
          && (promPasses cfg2 buf pk && widthPasses cfg2 buf pk)) = true
      · rw [if_pos hv2]
        rw [Bool.and_eq_true] at hv2
        rcases hv2 with ⟨hdist2, hfil2⟩
        have hv2 : (distancePasses cfg2 conf2 pk
            && (promPasses cfg2 buf pk && widthPasses cfg2 buf pk)) = true := by
          rw [Bool.and_eq_true]
          exact ⟨hdist2, hfil2⟩
        have hfil1 := hmono pk (List.mem_cons_self _ _) hfil2
        by_cases hv1 : (distancePasses cfg1 conf1 pk
            && (promPasses cfg1 buf pk && widthPasses cfg1 buf pk)) = true
        · rw [if_pos hv1]
          apply ih np1 np2 (conf1 ++ [pk]) (conf2 ++ [pk]) hmono_rest hQrest
          · intro q hq p2 hp2
            rcases List.mem_append.mp hq with h | h
            · exact hgt_rest q h p2 hp2
            · rw [List.mem_singleton] at h
              rw [h]
              exact hhead p2 hp2
          · refine ⟨by simp [hR.1], ?_⟩
            intro _ l1 hl1 l2 hl2
            rw [List.getLast?_concat] at hl1 hl2
            cases hl1
            cases hl2
            exact le_refl _
        · rw [if_neg hv1]
          have hlt : conf2.length < conf1.length := by
            rcases Nat.lt_or_ge conf2.length conf1.length with h | h
            · exact h
            · exfalso
              have hlen : conf2.length = conf1.length :=
                le_antisymm (hR.1) h
              apply hv1
              rw [Bool.and_eq_true]
              exact ⟨distancePasses_rel cfg1 cfg2 hd conf1 conf2 pk hlen
                (hR.2 hlen) hdist2, hfil1⟩
          apply ih np1 np2 conf1 (conf2 ++ [pk]) hmono_rest hQrest hgt_rest
          refine ⟨by
            have h1 := hlt
            simp only [List.length_append, List.length_singleton]
            omega, ?_⟩
          intro heq l1 hl1 l2 hl2
          rw [List.getLast?_concat] at hl2
          cases hl2
          have hmem1 : l1 ∈ conf1 := List.mem_of_mem_getLast? hl1
          exact le_of_lt (hgt l1 hmem1 pk (List.mem_cons_self _ _))
      · rw [if_neg hv2]
        by_cases hv1 : (distancePasses cfg1 conf1 pk
            && (promPasses cfg1 buf pk && widthPasses cfg1 buf pk)) = true
        · rw [if_pos hv1]
          apply ih np1 np2 (conf1 ++ [pk]) conf2 hmono_rest hQrest
          · intro q hq p2 hp2
            rcases List.mem_append.mp hq with h | h
            · exact hgt_rest q h p2 hp2
            · rw [List.mem_singleton] at h
              rw [h]
              exact hhead p2 hp2
          · refine ⟨by
              have h1 := hR.1
              simp only [List.length_append, List.length_singleton]
              omega, ?_⟩
            intro heq
            exfalso
            have := hR.1
            simp only [List.length_append, List.length_singleton] at heq
            omega
        · rw [if_neg hv1]
          exact ih np1 np2 conf1 conf2 hmono_rest hQrest hgt_rest hR
    · rw [if_neg hage, if_neg hage]
      exact ih (np1 ++ [pk]) (np2 ++ [pk]) conf1 conf2 hmono_rest hQrest
        hgt_rest hR

theorem scanStage_potential_shared (cfg1 cfg2 : StreamConfig)
    (hB : cfg1.buffer_size = cfg2.buffer_size)
    (ht : cfg1.threshold = cfg2.threshold) (s1 s2 : StreamState)
    (h1 : s1.buffer = s2.buffer) (h2 : s1.buffer_index = s2.buffer_index)
    (h3 : s1.sample_count = s2.sample_count)
    (h4 : s1.potential_peaks = s2.potential_peaks) (x : ℚ) :
    (scanStage cfg1 s1 x).potential_peaks
      = (scanStage cfg2 s2 x).potential_peaks := by
  rw [scanStage_potential, scanStage_potential, h3]
  rw [checkPotential_potential, checkPotential_potential]
  simp only [writeSample]
  rw [h1, h2, h3, h4, hB, ht]

/-- The scan-stage parts of the invariant, exposed for the simulation
proofs: the mid-step pending queue is sorted, slot-backed at the new
sample count, and strictly beyond every confirmed position. -/
theorem scanStage_inv_parts (cfg : StreamConfig) (s : StreamState) (x : ℚ)
    (hInv : Inv cfg s) :
    (scanStage cfg s x).potential_peaks.Pairwise (fun a b => a.1 < b.1) ∧
    (∀ pk ∈ (scanStage cfg s x).potential_peaks,
      pendingOK cfg (s.sample_count + 1) (scanStage cfg s x).buffer pk) ∧
    (∀ q ∈ (scanStage cfg s x).confirmed_peaks,
      ∀ pk ∈ (scanStage cfg s x).potential_peaks, q.1 < pk.1) := by
  obtain ⟨hlen, hbi, hpsort, hpok, hpy, hcsort, hcb, hcp⟩ := hInv
  have hbuf2 : (scanStage cfg s x).buffer = s.buffer.set s.buffer_index x :=
    scanStage_buffer cfg s x
  have hpend := scanStage_pending_cases cfg s x hbi
  refine ⟨?_, ?_, ?_⟩
  · rcases hpend with h | ⟨h3, h⟩ <;> rw [h]
    · exact hpsort
    · rw [List.pairwise_append]
      refine ⟨hpsort, List.pairwise_singleton _ _, ?_⟩
      intro a ha b hb
      rw [List.mem_singleton] at hb
      rw [hb]
      have := (hpok a ha).2.1
      simp only
      omega
  · rw [hbuf2]
    rcases hpend with h | ⟨h3, h⟩ <;> rw [h]
    · exact fun pk hpk => pendingOK_write cfg s x hbi pk (hpok pk hpk) (hpy pk hpk)
    · intro pk hpk
      rcases List.mem_append.mp hpk with hm | hm
      · exact pendingOK_write cfg s x hbi pk (hpok pk hm) (hpy pk hm)
      · rw [List.mem_singleton] at hm
        rw [hm]
        exact ⟨by omega, by omega, rfl⟩
  · rw [scanStage_confirmed]
    rcases hpend with h | ⟨h3, h⟩ <;> rw [h]
    · exact hcp
    · intro q hq pk hpk
      rcases List.mem_append.mp hpk with hm | hm
      · exact hcp q hq pk hm
      · rw [List.mem_singleton] at hm
        rw [hm]
        have := hcb q hq
        simp only
        omega

/-- The run-level monotone simulation: the stricter configuration never
confirms more peaks. -/
theorem streamRun_confRel (cfg1 cfg2 : StreamConfig)
    (hB : cfg1.buffer_size = cfg2.buffer_size)
    (ht : cfg1.threshold = cfg2.threshold)
    (hd : cfg1.min_distance = cfg2.min_distance)
    (hmono : ∀ (buf : List ℚ) (pk : ℕ × ℚ),
      buf.length = cfg1.buffer_size →
      buf.getD (pk.1 % cfg1.buffer_size) 0 = pk.2 →
      (promPasses cfg2 buf pk && widthPasses cfg2 buf pk) = true →
      (promPasses cfg1 buf pk && widthPasses cfg1 buf pk) = true)
    (samples : List ℚ) :
    confRel (streamRun cfg1 samples).confirmed_peaks
      (streamRun cfg2 samples).confirmed_peaks := by
  induction samples using List.reverseRecOn with
  | nil =>
    refine ⟨le_refl _, fun _ l1 hl1 l2 hl2 => ?_⟩
    simp only [streamRun, streamRunFrom, List.foldl_nil, initState] at hl1
    cases hl1
  | append_singleton samples x ih =>
    rw [streamRun_append_one, streamRun_append_one]
    obtain ⟨hEb, hEbi, hEsc, hEp⟩ := streamRun_shared cfg1 cfg2 hB ht samples
    obtain ⟨hSsort, hSok, hScp⟩ :=
      scanStage_inv_parts cfg1 (streamRun cfg1 samples) x
        (Inv_streamRun cfg1 samples)
    have hlen1 : (streamRun cfg1 samples).buffer.length = cfg1.buffer_size :=
      (Inv_streamRun cfg1 samples).1
    have hSb : (scanStage cfg1 (streamRun cfg1 samples) x).buffer
        = (scanStage cfg2 (streamRun cfg2 samples) x).buffer := by
      rw [scanStage_buffer, scanStage_buffer, hEb, hEbi]
    have hSsc : (scanStage cfg1 (streamRun cfg1 samples) x).sample_count
        = (scanStage cfg2 (streamRun cfg2 samples) x).sample_count := by
      rw [scanStage_sample_count, scanStage_sample_count, hEsc]
    have hSp : (scanStage cfg1 (streamRun cfg1 samples) x).potential_peaks
        = (scanStage cfg2 (streamRun cfg2 samples) x).potential_peaks :=
      scanStage_potential_shared cfg1 cfg2 hB ht _ _ hEb hEbi hEsc hEp x
    rw [add_sample_cases, add_sample_cases, ← hEsc, ← hB]
    split
    · rw [processPeaks_confirmed, processPeaks_confirmed, ← hSb, ← hSsc, ← hSp,
        scanStage_confirmed, scanStage_confirmed]
      apply processLoop_sim cfg1 cfg2 _ _ hB hd _ [] [] _ _ ?_ hSsort ?_ ih
      · intro pk hpk hfil
        refine hmono _ pk ?_ ?_ hfil
        · rw [scanStage_buffer, List.length_set]
          exact hlen1
        · exact (hSok pk hpk).2.2
      · intro q hq pk hpk
        exact hScp q (by rw [scanStage_confirmed]; exact hq) pk hpk
    · rw [scanStage_confirmed, scanStage_confirmed]
      exact ih

/-- C9: raising `prominence` (or `width`) while holding everything else
fixed never increases the number of returned peaks — trivially for the
batch detector, whose returned peaks list does not depend on either
filter, and by the greedy simulation for the streaming detector. -/
theorem C9_raising_filters_monotone (t : ℚ) (d : ℤ) (o : Option ℚ)
    (c1 c2 : ℚ) (hc : c1 ≤ c2) (w1 w2 : ℚ) (hw : w1 ≤ w2)
    (B : ℕ) (hB : 1 ≤ B) (signal samples : List ℚ) :
    ((detect_peaks (BatchConfig.mk t d (some c2) o) signal).peaks.length
      ≤ (detect_peaks (BatchConfig.mk t d (some c1) o) signal).peaks.length) ∧
    ((detect_peaks (BatchConfig.mk t d o (some w2)) signal).peaks.length
      ≤ (detect_peaks (BatchConfig.mk t d o (some w1)) signal).peaks.length) ∧
    ((streamRun (StreamConfig.mk B t d (some c2) o)
        samples).confirmed_peaks.length
      ≤ (streamRun (StreamConfig.mk B t d (some c1) o)
          samples).confirmed_peaks.length) ∧
    ((streamRun (StreamConfig.mk B t d o (some w2))
        samples).confirmed_peaks.length
      ≤ (streamRun (StreamConfig.mk B t d o (some w1))
          samples).confirmed_peaks.length) := by
  refine ⟨Nat.le_refl _, Nat.le_refl _, ?_, ?_⟩
  · refine (streamRun_confRel (StreamConfig.mk B t d (some c1) o)
      (StreamConfig.mk B t d (some c2) o) rfl rfl rfl ?_ samples).1
    intro buf pk hlen hslot hfil
    rw [Bool.and_eq_true] at hfil ⊢
    refine ⟨?_, ?_⟩
    · exact promPasses_mono (StreamConfig.mk B t d (some c1) o)
        (StreamConfig.mk B t d (some c2) o) c1 c2 rfl rfl hc rfl buf pk
        (streamProminence_nonneg (StreamConfig.mk B t d (some c1) o) buf pk
          hB hlen hslot) hfil.1
    · rw [widthPasses_congr (StreamConfig.mk B t d (some c1) o)
        (StreamConfig.mk B t d (some c2) o) rfl rfl rfl buf pk]
      exact hfil.2
  · refine (streamRun_confRel (StreamConfig.mk B t d o (some w1))
      (StreamConfig.mk B t d o (some w2)) rfl rfl rfl ?_ samples).1
    intro buf pk hlen hslot hfil
    rw [Bool.and_eq_true] at hfil ⊢
    refine ⟨?_, ?_⟩
    · rw [promPasses_congr (StreamConfig.mk B t d o (some w1))
        (StreamConfig.mk B t d o (some w2)) rfl rfl buf pk]
      exact hfil.1
    · exact widthPasses_mono (StreamConfig.mk B t d o (some w1))
        (StreamConfig.mk B t d o (some w2)) w1 w2 rfl rfl hw rfl rfl buf pk
        hfil.2

/-- Witness for C9 at thresholds 1 ≤ 2, `buffer_size = 3`, signal and
stream `[0,1,0]`. -/
theorem C9_raising_filters_monotone_witness :
    (1 : ℚ) ≤ 2 ∧ (1 : ℕ) ≤ 3 ∧
    (((detect_peaks (BatchConfig.mk 0 1 (some 2) none) [0, 1, 0]).peaks.length
      ≤ (detect_peaks (BatchConfig.mk 0 1 (some 1) none) [0, 1, 0]).peaks.length) ∧
    ((detect_peaks (BatchConfig.mk 0 1 none (some 2)) [0, 1, 0]).peaks.length
      ≤ (detect_peaks (BatchConfig.mk 0 1 none (some 1)) [0, 1, 0]).peaks.length) ∧
    ((streamRun (StreamConfig.mk 3 0 1 (some 2) none)
        [0, 1, 0]).confirmed_peaks.length
      ≤ (streamRun (StreamConfig.mk 3 0 1 (some 1) none)
          [0, 1, 0]).confirmed_peaks.length) ∧
    ((streamRun (StreamConfig.mk 3 0 1 none (some 2))
        [0, 1, 0]).confirmed_peaks.length
      ≤ (streamRun (StreamConfig.mk 3 0 1 none (some 1))
          [0, 1, 0]).confirmed_peaks.length)) :=
  ⟨by norm_num, by norm_num,
    C9_raising_filters_monotone 0 1 none 1 2 (by norm_num) 1 2 (by norm_num)
      3 (by norm_num) [0, 1, 0] [0, 1, 0]⟩

/-! ## Independence from the initial buffer fill -/

/-- A detector state whose fixed-size buffer starts with an arbitrary
fill instead of the constructor's zeros; used to state that no output
ever depends on the zero-initialization. -/
def initWith (fill : List ℚ) : StreamState :=
  StreamState.mk fill 0 [] [] 0

theorem Inv_initWith (cfg : StreamConfig) (fill : List ℚ)
    (hlen : fill.length = cfg.buffer_size) : Inv cfg (initWith fill) := by
  refine ⟨hlen, ?_, ?_, ?_, ?_, ?_, ?_, ?_⟩ <;>
    simp [initWith, pendingOK, pendingYoung]

/-- The buffer slots already written (all of them once the window has
filled) hold the same values in both runs; unwritten slots may differ. -/
def buffersAgree (B sc : ℕ) (b1 b2 : List ℚ) : Prop :=
  ∀ j : ℕ, (j < sc ∨ B ≤ sc) → b1.getD j 0 = b2.getD j 0

theorem getD_oob (l : List ℚ) (j : ℕ) (h : l.length ≤ j) : l.getD j 0 = 0 := by
  rw [List.getD_eq_getElem?_getD, List.getElem?_eq_none h]
  rfl

theorem getD_set_self (l : List ℚ) (i : ℕ) (x : ℚ) (h : i < l.length) :
    (l.set i x).getD i 0 = x := by
  rw [List.getD_eq_getElem?_getD, List.getElem?_set_self]
  · rfl
  · exact h

theorem agree_write (B sc : ℕ) (b1 b2 : List ℚ) (hl1 : b1.length = B)
    (hl2 : b2.length = B) (hag : buffersAgree B sc b1 b2) (x : ℚ) :
    buffersAgree B (sc + 1) (b1.set (sc % B) x) (b2.set (sc % B) x) := by
  intro j hj
  by_cases hjb : j = sc % B
  · subst hjb
    by_cases hlt : sc % B < B
    · rw [getD_set_self b1 _ x (by omega), getD_set_self b2 _ x (by omega)]
    · have hB0 : B = 0 := by
        rcases Nat.eq_zero_or_pos B with h | h
        · exact h
        · exact absurd (Nat.mod_lt sc h) hlt
      rw [getD_oob _ _ (by rw [List.length_set]; omega),
        getD_oob _ _ (by rw [List.length_set]; omega)]
  · by_cases hoob : B ≤ j
    · rw [getD_oob _ _ (by rw [List.length_set]; omega),
        getD_oob _ _ (by rw [List.length_set]; omega)]
    · rw [getD_set_ne b1 _ _ x fun h => hjb h.symm,
        getD_set_ne b2 _ _ x fun h => hjb h.symm]
      apply hag j
      by_cases hjs : j < sc
      · exact Or.inl hjs
      · by_cases hBs : B ≤ sc
        · exact Or.inr hBs
        · exfalso
          have hmod : sc % B = sc := Nat.mod_eq_of_lt (by omega)
          have hne : j ≠ sc := by
            rw [← hmod]
            exact hjb
          rcases hj with h | h
          · omega
          · omega

theorem agree_full_eq (B sc : ℕ) (b1 b2 : List ℚ) (hl1 : b1.length = B)
    (hl2 : b2.length = B) (hag : buffersAgree B sc b1 b2) (hfull : B ≤ sc) :
    b1 = b2 := by
  apply List.ext_getElem (by omega)
  intro i h1 h2
  have := hag i (Or.inr hfull)
  rw [List.getD_eq_getElem _ 0 h1, List.getD_eq_getElem _ 0 h2] at this
  exact this

theorem mod_shift_sub_one (a B : ℕ) (ha : 1 ≤ a) :
    (a % B + B - 1) % B = (a - 1) % B := by
  rcases Nat.eq_zero_or_pos B with hB | hB
  · subst hB
    simp only [Nat.mod_zero]
    omega
  · have h1 : a % B + B - 1 = a % B + (B - 1) := by omega
    rw [h1, Nat.mod_add_mod]
    have h2 : a + (B - 1) = (a - 1) + B := by omega
    rw [h2, Nat.add_mod_right]

theorem read_cond (B n k : ℕ) (hk1 : 1 ≤ k) (hkn : k ≤ n) :
    (n - k) % B < n ∨ B ≤ n := by
  by_cases hB : B ≤ n
  · exact Or.inr hB
  · left
    have : (n - k) % B = n - k := Nat.mod_eq_of_lt (by omega)
    omega

/-- The candidate scan reads only slots already written in both runs, so
agreeing buffers produce the same pending queue. -/
theorem scanStage_potential_agree (cfg : StreamConfig) (s1 s2 : StreamState)
    (x : ℚ) (hbi1 : s1.buffer_index = s1.sample_count % cfg.buffer_size)
    (h2 : s1.buffer_index = s2.buffer_index)
    (h3 : s1.sample_count = s2.sample_count)
    (h4 : s1.potential_peaks = s2.potential_peaks)
    (hl1 : s1.buffer.length = cfg.buffer_size)
    (hl2 : s2.buffer.length = cfg.buffer_size)
    (hag : buffersAgree cfg.buffer_size s1.sample_count s1.buffer s2.buffer) :
    (scanStage cfg s1 x).potential_peaks
      = (scanStage cfg s2 x).potential_peaks := by
  have hbi2 : s2.buffer_index = s2.sample_count % cfg.buffer_size := by
    rw [← h2, ← h3]
    exact hbi1
  rw [scanStage_potential, scanStage_potential, h3]
  split
  · rename_i h3sc
    rw [checkPotential_potential, checkPotential_potential]
    simp only [writeSample]
    rw [h2, h3, h4, hbi2]
    have hagw : buffersAgree cfg.buffer_size (s2.sample_count + 1)
        (s1.buffer.set (s2.sample_count % cfg.buffer_size) x)
        (s2.buffer.set (s2.sample_count % cfg.buffer_size) x) := by
      apply agree_write cfg.buffer_size s2.sample_count s1.buffer s2.buffer
        hl1 hl2
      intro j hj
      apply hag j
      rw [h3]
      exact hj
    have hi0 : (s2.sample_count % cfg.buffer_size + 1) % cfg.buffer_size
        + cfg.buffer_size - 2 = ((s2.sample_count + 1) % cfg.buffer_size)
        + cfg.buffer_size - 2 := by
      rw [Nat.mod_add_mod]
    have hcur : ((s2.sample_count % cfg.buffer_size + 1) % cfg.buffer_size
        + cfg.buffer_size - 2) % cfg.buffer_size
        = (s2.sample_count + 1 - 2) % cfg.buffer_size := by
      rw [hi0]
      exact current_index_eq (by omega)
    have hsub : s2.sample_count + 1 - 2 = s2.sample_count - 1 := by omega
    have hprev : ((s2.sample_count + 1 - 2) % cfg.buffer_size
        + cfg.buffer_size - 1) % cfg.buffer_size
        = (s2.sample_count - 2) % cfg.buffer_size := by
      rw [hsub, mod_shift_sub_one (s2.sample_count - 1) cfg.buffer_size
        (by omega)]
      have h11 : s2.sample_count - 1 - 1 = s2.sample_count - 2 := by omega
      rw [h11]
    have hnext : ((s2.sample_count + 1 - 2) % cfg.buffer_size + 1)
        % cfg.buffer_size = s2.sample_count % cfg.buffer_size := by
      rw [hsub, Nat.mod_add_mod]
      congr 1
      omega
    rw [hcur, hprev, hnext]
    have e0 := hagw ((s2.sample_count + 1 - 2) % cfg.buffer_size)
      (read_cond cfg.buffer_size (s2.sample_count + 1) 2 (by omega) (by omega))
    have e1 := hagw ((s2.sample_count - 2) % cfg.buffer_size)
      (by
        have : s2.sample_count - 2 = s2.sample_count + 1 - 3 := by omega
        rw [this]
        exact read_cond cfg.buffer_size (s2.sample_count + 1) 3 (by omega)
          (by omega))
    have e2 := hagw (s2.sample_count % cfg.buffer_size)
      (by
        have : s2.sample_count = s2.sample_count + 1 - 1 := by omega
        rw [this]
        exact read_cond cfg.buffer_size (s2.sample_count + 1) 1 (by omega)
          (by omega))
    rw [e0, e1, e2]
  · exact h4

/-- One ingestion preserves the two-run relation: equal cursors, counters,
queues and confirmed lists, and agreement on every written slot. -/
theorem add_sample_agree (cfg : StreamConfig) (s1 s2 : StreamState) (x : ℚ)
    (hInv1 : Inv cfg s1)
    (h2 : s1.buffer_index = s2.buffer_index)
    (h3 : s1.sample_count = s2.sample_count)
    (h4 : s1.potential_peaks = s2.potential_peaks)
    (h5 : s1.confirmed_peaks = s2.confirmed_peaks)
    (hl2 : s2.buffer.length = cfg.buffer_size)
    (hag : buffersAgree cfg.buffer_size s1.sample_count s1.buffer s2.buffer) :
    (add_sample cfg s1 x).buffer_index = (add_sample cfg s2 x).buffer_index ∧
    (add_sample cfg s1 x).sample_count = (add_sample cfg s2 x).sample_count ∧
    (add_sample cfg s1 x).potential_peaks
      = (add_sample cfg s2 x).potential_peaks ∧
    (add_sample cfg s1 x).confirmed_peaks
      = (add_sample cfg s2 x).confirmed_peaks ∧
    buffersAgree cfg.buffer_size (add_sample cfg s1 x).sample_count
      (add_sample cfg s1 x).buffer (add_sample cfg s2 x).buffer := by
  obtain ⟨hl1, hbi1, _, _, _, _, _, _⟩ := hInv1
  have hbi2 : s2.buffer_index = s2.sample_count % cfg.buffer_size := by
    rw [← h2, ← h3]
    exact hbi1
  have hSp : (scanStage cfg s1 x).potential_peaks
      = (scanStage cfg s2 x).potential_peaks :=
    scanStage_potential_agree cfg s1 s2 x hbi1 h2 h3 h4 hl1 hl2 hag
  have hagw : buffersAgree cfg.buffer_size (s1.sample_count + 1)
      (s1.buffer.set s1.buffer_index x) (s2.buffer.set s2.buffer_index x) := by
    rw [hbi1, ← h2, hbi1]
    exact agree_write cfg.buffer_size s1.sample_count s1.buffer s2.buffer
      hl1 (by rw [hl2]) hag x
  refine ⟨?_, ?_, ?_, ?_, ?_⟩
  · rw [add_sample_buffer_index, add_sample_buffer_index, h2]
  · rw [add_sample_sample_count, add_sample_sample_count, h3]
  · rw [add_sample_potential, add_sample_potential, h3, hSp]
  · rw [add_sample_cases, add_sample_cases, ← h3]
    split
    · rename_i hProc
      rw [processPeaks_confirmed, processPeaks_confirmed]
      have hbeq : (scanStage cfg s1 x).buffer = (scanStage cfg s2 x).buffer := by
        rw [scanStage_buffer, scanStage_buffer]
        apply agree_full_eq cfg.buffer_size (s1.sample_count + 1)
        · rw [List.length_set, hl1]
        · rw [List.length_set, hl2]
        · exact hagw
        · exact hProc
      rw [hbeq, hSp, scanStage_sample_count, scanStage_sample_count, h3,
        scanStage_confirmed, scanStage_confirmed, h5]
    · rw [scanStage_confirmed, scanStage_confirmed, h5]
  · rw [add_sample_sample_count, add_sample_buffer, add_sample_buffer, ← h2,
      hbi1]
    exact agree_write cfg.buffer_size s1.sample_count s1.buffer s2.buffer
      hl1 (by rw [hl2]) hag x

/-- C10: the confirmed-peaks output never depends on the initial fill of
the buffer — two runs over the same samples whose buffers start with
arbitrary (equal-length) fills produce identical confirmed lists. -/
theorem C10_output_fill_independent (cfg : StreamConfig)
    (fill1 fill2 : List ℚ) (hl1 : fill1.length = cfg.buffer_size)
    (hl2 : fill2.length = cfg.buffer_size) (samples : List ℚ) :
    (streamRunFrom cfg (initWith fill1) samples).confirmed_peaks
      = (streamRunFrom cfg (initWith fill2) samples).confirmed_peaks := by
  suffices h : ∀ (s1 s2 : StreamState), Inv cfg s1 →
      s1.buffer_index = s2.buffer_index →
      s1.sample_count = s2.sample_count →
      s1.potential_peaks = s2.potential_peaks →
      s1.confirmed_peaks = s2.confirmed_peaks →
      s2.buffer.length = cfg.buffer_size →
      buffersAgree cfg.buffer_size s1.sample_count s1.buffer s2.buffer →
      (streamRunFrom cfg s1 samples).confirmed_peaks
        = (streamRunFrom cfg s2 samples).confirmed_peaks by
    apply h (initWith fill1) (initWith fill2) (Inv_initWith cfg fill1 hl1)
      rfl rfl rfl rfl hl2
    intro j hj
    rcases hj with h | h
    · simp only [initWith] at h
      omega
    · simp only [initWith] at h
      rw [getD_oob _ _ (by simp only [initWith]; omega),
        getD_oob _ _ (by simp only [initWith]; omega)]
  induction samples with
  | nil => intro s1 s2 _ _ _ _ h5 _ _; exact h5
  | cons y ys ih =>
    intro s1 s2 hInv1 h2 h3 h4 h5 hl2b hag
    obtain ⟨a1, a2, a3, a4, a5⟩ :=
      add_sample_agree cfg s1 s2 y hInv1 h2 h3 h4 h5 hl2b hag
    have hlen2' : (add_sample cfg s2 y).buffer.length = cfg.buffer_size := by
      rw [add_sample_buffer, List.length_set, hl2b]
    exact ih (add_sample cfg s1 y) (add_sample cfg s2 y)
      (Inv_add_sample cfg s1 y hInv1) a1 a2 a3 a4 hlen2' a5

theorem initState_eq_initWith (cfg : StreamConfig) :
    initState cfg = initWith (List.replicate cfg.buffer_size 0) := rfl

/-- Witness for C10: fills `[5,5,5]` and `[0,0,0]` at `buffer_size = 3`
over the stream `[0,1,0]`. -/
theorem C10_output_fill_independent_witness :
    ([(5 : ℚ), 5, 5].length = (StreamConfig.mk 3 0 1 none none).buffer_size) ∧
    ([(0 : ℚ), 0, 0].length = (StreamConfig.mk 3 0 1 none none).buffer_size) ∧
    (streamRunFrom (StreamConfig.mk 3 0 1 none none) (initWith [5, 5, 5])
        [0, 1, 0]).confirmed_peaks
      = (streamRunFrom (StreamConfig.mk 3 0 1 none none) (initWith [0, 0, 0])
          [0, 1, 0]).confirmed_peaks :=
  ⟨rfl, rfl, C10_output_fill_independent (StreamConfig.mk 3 0 1 none none)
    [5, 5, 5] [0, 0, 0] rfl rfl [0, 1, 0]⟩

end PeakDetection
